import Mathlib

set_option maxHeartbeats 1000000
set_option maxRecDepth 100000

/-!
Verification development for the rate-limited translation request scheduler
implemented in src/lib/translationMiddleware.ts.

Modelling conventions:
- A JS string is a list of UTF-16 code units (all inputs of interest are in
  the Basic Multilingual Plane, so one unit per character).
- Timestamps (Date.now()) are integers (milliseconds).
- The JS Map used for the translation cache is an insertion-ordered
  association list: Map.set on an existing key updates the value in place
  (keeping the original insertion position), Map.delete removes the entry,
  and iteration order (Array.from(map.keys())) is insertion order.
- Token counts are natural numbers (estimateTokens returns a ceiling).
-/

abbrev JSString := List Nat

/-- The JS whitespace class \s (also the set removed by String.trim):
tab, LF, VT, FF, CR, space, NBSP, and the Unicode space separators. -/
def jsSpaceChar (c : Nat) : Bool :=
  c == 0x9 || c == 0xA || c == 0xB || c == 0xC || c == 0xD || c == 0x20 ||
  c == 0xA0 || c == 0x1680 || (0x2000 ≤ c && c ≤ 0x200A) || c == 0x2028 ||
  c == 0x2029 || c == 0x202F || c == 0x205F || c == 0x3000 || c == 0xFEFF

/-- String.prototype.trim: drop leading and trailing whitespace. -/
def jsTrim (s : JSString) : JSString :=
  ((s.dropWhile (fun c => jsSpaceChar c)).reverse.dropWhile
    (fun c => jsSpaceChar c)).reverse

/-- String.prototype.toLowerCase on one code unit, modelled on the ASCII
range (the case mapping relevant to the cache keys and language codes used
by the middleware; CJK characters have no case). -/
def jsToLowerChar (c : Nat) : Nat :=
  if 0x41 ≤ c ∧ c ≤ 0x5A then c + 0x20 else c

def jsToLower (s : JSString) : JSString := s.map jsToLowerChar

/-- The main CJK Unified Ideographs block u4e00-u9fff: the character class
used by estimateTokens and by every lookahead in the source file, and the
"dense script" of the specification. -/
def isChineseMain (c : Nat) : Bool := 0x4E00 ≤ c && c ≤ 0x9FFF

/-- estimateTokens (translationMiddleware.ts:74-80):
ceil(chineseChars * 1.5 + otherChars / 4). -/
def estimateTokens (text : JSString) : Nat :=
  let chineseChars := (text.filter (fun c => isChineseMain c)).length
  let otherChars := text.length - chineseChars
  (6 * chineseChars + otherChars + 3) / 4

/-- getCacheKey (translationMiddleware.ts:132-134):
targetLanguage + ":" + text.trim().toLowerCase(). -/
def getCacheKey (text targetLanguage : JSString) : JSString :=
  targetLanguage ++ 0x3A :: jsToLower (jsTrim text)

structure CacheEntry where
  result : JSString
  timestamp : Int
  tokens : Nat
deriving Repr, DecidableEq

abbrev CacheMap := List (JSString × CacheEntry)

/-- Map.prototype.get: first (unique) entry with the given key. -/
def mapGet (k : JSString) : CacheMap → Option CacheEntry
  | [] => none
  | (k2, v) :: rest => if k2 = k then some v else mapGet k rest

/-- Map.prototype.delete. -/
def mapDelete (k : JSString) : CacheMap → CacheMap
  | [] => []
  | (k2, v) :: rest => if k2 = k then rest else (k2, v) :: mapDelete k rest

/-- Map.prototype.set: update in place if the key exists (the entry keeps
its insertion position), otherwise append at the end. -/
def mapSet (k : JSString) (v : CacheEntry) : CacheMap → CacheMap
  | [] => [(k, v)]
  | (k2, v2) :: rest => if k2 = k then (k2, v) :: rest else (k2, v2) :: mapSet k v rest

structure QueueItem where
  id : Nat
  text : JSString
  targetLanguage : JSString
  priority : Int
  estimatedTokens : Nat
  timestamp : Int
deriving Repr, DecidableEq

structure RateLimitConfig where
  rpm : Nat
  tpm : Nat
  maxConcurrent : Nat
  batchSize : Nat
deriving Repr, DecidableEq

structure MiddlewareState where
  requestTimes : List Int
  tokenUsage : List (Int × Nat)
  activeRequests : Nat
  translationQueue : List QueueItem
  translationCache : CacheMap
  cacheHitCount : Nat
  cacheMissCount : Nat
deriving Repr, DecidableEq

def initialState : MiddlewareState := ⟨[], [], 0, [], [], 0, 0⟩

/-- maxCacheSize (translationMiddleware.ts:61). -/
def maxCacheSize : Nat := 1000

/-- The cache TTL: 1 hour in milliseconds (translationMiddleware.ts:145). -/
def cacheTTL : Int := 3600000

/-- getFromCache (translationMiddleware.ts:139-155). Returns the cached
result if present and younger than the TTL; a stale entry is deleted and
counted as a miss. -/
def getFromCache (now : Int) (text targetLanguage : JSString)
    (s : MiddlewareState) : Option JSString × MiddlewareState :=
  let key := getCacheKey text targetLanguage
  match mapGet key s.translationCache with
  | some cached =>
    if now - cached.timestamp < cacheTTL then
      (some cached.result, { s with cacheHitCount := s.cacheHitCount + 1 })
    else
      (none, { s with translationCache := mapDelete key s.translationCache,
                      cacheMissCount := s.cacheMissCount + 1 })
  | none => (none, { s with cacheMissCount := s.cacheMissCount + 1 })

/-- storeToCache (translationMiddleware.ts:160-174). If the cache is at
capacity, the first key in insertion order (Array.from(keys())[0]) is
deleted, then the new entry is set. -/
def storeToCache (now : Int) (text targetLanguage result : JSString)
    (tokens : Nat) (s : MiddlewareState) : MiddlewareState :=
  let key := getCacheKey text targetLanguage
  let cache :=
    if maxCacheSize ≤ s.translationCache.length then
      match s.translationCache with
      | [] => ([] : CacheMap)
      | (k0, _) :: _ => mapDelete k0 s.translationCache
    else s.translationCache
  { s with translationCache := mapSet key ⟨result, now, tokens⟩ cache }

/-- A sequence of put operations against the cache, each with its own
timestamp, key material, result and token count. -/
def runPuts : List (Int × JSString × JSString × JSString × Nat) →
    MiddlewareState → MiddlewareState
  | [], s => s
  | (now, text, lang, result, tokens) :: rest, s =>
      runPuts rest (storeToCache now text lang result tokens s)

/-- The anchored URL alternation used by isSlashCommand (ts:551):
the regex is an alternation of the anchored literals http://, https://,
ftp://, file:// and //. -/
def urlAnchorTest (t : JSString) : Bool :=
  List.isPrefixOf [104, 116, 116, 112, 58, 47, 47] t ||
  List.isPrefixOf [104, 116, 116, 112, 115, 58, 47, 47] t ||
  List.isPrefixOf [102, 116, 112, 58, 47, 47] t ||
  List.isPrefixOf [102, 105, 108, 101, 58, 47, 47] t ||
  List.isPrefixOf [47, 47] t

/-- isSlashCommand (ts:537-556; the exported copy at ts:987-1006 is
textually identical): trimmed text must start with one slash, not two,
and not match the anchored URL alternation. -/
def isSlashCommand (text : JSString) : Bool :=
  let trimmedText := jsTrim text
  if ¬ List.isPrefixOf [47] trimmedText then false
  else if List.isPrefixOf [47, 47] trimmedText then false
  else if urlAnchorTest trimmedText then false
  else true

/-- Modelled from the words of claim C10: true exactly when the trimmed
text starts with a single slash and does not start with a double slash. -/
def isSlashCommandSpec (text : JSString) : Bool :=
  let t := jsTrim text
  List.isPrefixOf [47] t && ¬ List.isPrefixOf [47, 47] t

-- Rate limiter (ts:85-127) and scheduler (ts:217-359).

def windowStart (now : Int) : Int := now - 60000

def pruneTimes (now : Int) (ts : List Int) : List Int :=
  ts.filter (fun time => windowStart now < time)

def pruneUsage (now : Int) (us : List (Int × Nat)) : List (Int × Nat) :=
  us.filter (fun usage => windowStart now < usage.1)

def sumTokens (us : List (Int × Nat)) : Nat := (us.map Prod.snd).sum

/-- canMakeRequest (ts:85-110). The filters are real assignments in the
source (this.requestTimes = this.requestTimes.filter(...)), so the check
prunes both windows in place before testing RPM, TPM and concurrency. -/
def canMakeRequest (cfg : RateLimitConfig) (now : Int) (estimatedTokens : Nat)
    (s : MiddlewareState) : Bool × MiddlewareState :=
  let requestTimes := pruneTimes now s.requestTimes
  let tokenUsage := pruneUsage now s.tokenUsage
  let s2 := { s with requestTimes := requestTimes, tokenUsage := tokenUsage }
  if cfg.rpm ≤ requestTimes.length then (false, s2)
  else if cfg.tpm < sumTokens tokenUsage + estimatedTokens then (false, s2)
  else if cfg.maxConcurrent ≤ s.activeRequests then (false, s2)
  else (true, s2)

/-- recordRequest (ts:115-120). -/
def recordRequest (now : Int) (tokens : Nat) (s : MiddlewareState) :
    MiddlewareState :=
  { s with requestTimes := s.requestTimes ++ [now],
           tokenUsage := s.tokenUsage ++ [(now, tokens)],
           activeRequests := s.activeRequests + 1 }

/-- completeRequest (ts:125-127): Math.max(0, n - 1) is truncated
subtraction on naturals. -/
def completeRequest (s : MiddlewareState) : MiddlewareState :=
  { s with activeRequests := s.activeRequests - 1 }

def insertByPriority (x : QueueItem) : List QueueItem → List QueueItem
  | [] => [x]
  | y :: ys =>
    if y.priority < x.priority then x :: y :: ys else y :: insertByPriority x ys

/-- this.translationQueue.sort((a, b) => b.priority - a.priority): a
stable descending sort by priority (Array.prototype.sort is stable). -/
def sortByPriority (l : List QueueItem) : List QueueItem :=
  l.foldl (fun acc x => insertByPriority x acc) []

def totalTokens (items : List QueueItem) : Nat :=
  (items.map QueueItem.estimatedTokens).sum

/-- The batch-collection loop of processQueue (ts:232-247). The budget
guard totalEstimatedTokens + item.estimatedTokens > tpm / 4 uses JS real
division, which over naturals is 4 * (tot + tokens) > tpm. Note that
canMakeRequest receives only the single candidate's token estimate. -/
def collectBatch (cfg : RateLimitConfig) (now : Int) :
    List QueueItem → List QueueItem → Nat → MiddlewareState →
    List QueueItem × Nat × MiddlewareState
  | [], batchItems, tot, s => (batchItems, tot, s)
  | item :: rest, batchItems, tot, s =>
    if cfg.batchSize ≤ batchItems.length then (batchItems, tot, s)
    else if cfg.tpm < 4 * (tot + item.estimatedTokens) then (batchItems, tot, s)
    else
      match canMakeRequest cfg now item.estimatedTokens s with
      | (true, s2) =>
        collectBatch cfg now rest (batchItems ++ [item])
          (tot + item.estimatedTokens) s2
      | (false, s2) => (batchItems, tot, s2)

inductive Outcome where
  | resolved (result : JSString)
  | rejected (error : JSString)
deriving Repr, DecidableEq

/-- The external translate capability (api.translateText), which may
throw: an oracle producing either an error or a result string. -/
abbrev TranslateOracle := JSString → JSString → Except JSString JSString

/-- new Error('Translation failed') (ts:308), as code units. -/
def translationFailedMsg : JSString :=
  [84, 114, 97, 110, 115, 108, 97, 116, 105, 111, 110, 32,
   102, 97, 105, 108, 101, 100]

/-- Insert an item into the dedup Map of processBatch (ts:276-284):
groups keep first-occurrence key order, items keep arrival order. -/
def addToGroup (key : JSString) (item : QueueItem) :
    List (JSString × List QueueItem) → List (JSString × List QueueItem)
  | [] => [(key, [item])]
  | (k, grp) :: rest =>
    if k = key then (k, grp ++ [item]) :: rest
    else (k, grp) :: addToGroup key item rest

def groupByKey : List QueueItem → List (JSString × List QueueItem) →
    List (JSString × List QueueItem)
  | [], acc => acc
  | item :: rest, acc =>
    groupByKey rest
      (addToGroup (getCacheKey item.text item.targetLanguage) item acc)

/-- The translate-and-settle path of one dedup group (ts:294-309). A JS
string is truthy iff non-empty, so an empty translation result skips the
cache store and rejects the group with 'Translation failed'. The third
component records the fingerprint of the outbound call that was made. -/
def groupTranslate (translate : TranslateOracle) (now : Int)
    (firstItem : QueueItem) (dups : List QueueItem) (s : MiddlewareState) :
    MiddlewareState × List (QueueItem × Outcome) × List JSString :=
  let fp := getCacheKey firstItem.text firstItem.targetLanguage
  match translate firstItem.text firstItem.targetLanguage with
  | Except.error e => (s, dups.map (fun it => (it, Outcome.rejected e)), [fp])
  | Except.ok r =>
    if r = [] then
      (s, dups.map (fun it => (it, Outcome.rejected translationFailedMsg)), [fp])
    else
      (storeToCache now firstItem.text firstItem.targetLanguage r
         firstItem.estimatedTokens s,
       dups.map (fun it => (it, Outcome.resolved r)), [fp])

/-- One dedup group of processBatch (ts:287-315): check the cache once
more; a truthy cached string resolves every member without an outbound
call, otherwise exactly one outbound call settles every member with the
same outcome. -/
def processGroup (translate : TranslateOracle) (now : Int)
    (dups : List QueueItem) (s : MiddlewareState) :
    MiddlewareState × List (QueueItem × Outcome) × List JSString :=
  match dups with
  | [] => (s, [], [])
  | firstItem :: _ =>
    match getFromCache now firstItem.text firstItem.targetLanguage s with
    | (some cached, s1) =>
      if cached = [] then groupTranslate translate now firstItem dups s1
      else (s1, dups.map (fun it => (it, Outcome.resolved cached)), [])
    | (none, s1) => groupTranslate translate now firstItem dups s1

def processGroups (translate : TranslateOracle) (now : Int) :
    List (JSString × List QueueItem) → MiddlewareState →
    MiddlewareState × List (QueueItem × Outcome) × List JSString
  | [], s => (s, [], [])
  | (_, dups) :: rest, s =>
    let r1 := processGroup translate now dups s
    let r2 := processGroups translate now rest r1.1
    (r2.1, r1.2.1 ++ r2.2.1, r1.2.2 ++ r2.2.2)

/-- processBatch (ts:267-323): record the whole batch's tokens once, then
settle each dedup group; completeRequest runs once in the finally block.
Nothing inside the try can throw in this model (per-group failures are
caught per group), matching the source where the outer catch is only a
safety net. -/
def processBatch (translate : TranslateOracle) (now : Int)
    (items : List QueueItem) (s : MiddlewareState) :
    MiddlewareState × List (QueueItem × Outcome) × List JSString :=
  if items = [] then (s, [], [])
  else
    let s1 := recordRequest now (totalTokens items) s
    let r := processGroups translate now (groupByKey items []) s1
    (completeRequest r.1, r.2.1, r.2.2)

/-- processQueue (ts:217-262): one scheduling tick. Items are removed by
object identity in the source (!batchItems.includes(item)); queue items
carry unique ids, so identity is modelled by id. -/
def processQueue (cfg : RateLimitConfig) (translate : TranslateOracle)
    (now : Int) (s : MiddlewareState) :
    MiddlewareState × List (QueueItem × Outcome) :=
  if s.translationQueue = [] then (s, [])
  else
    let sorted := sortByPriority s.translationQueue
    let s1 := { s with translationQueue := sorted }
    let c := collectBatch cfg now sorted [] 0 s1
    if c.1 = [] then (c.2.2, [])
    else
      let r := processBatch translate now c.1 c.2.2
      let keep : QueueItem → Bool :=
        fun it => ! (c.1.map QueueItem.id).contains it.id
      ({ r.1 with translationQueue := r.1.translationQueue.filter keep }, r.2.1)

/-- The enqueue-and-maybe-tick tail of queueTranslation (ts:339-358):
build the queue item, push it, and trigger an immediate processQueue run
when the new item is currently admissible (the isProcessingQueue flag is
always false between operations of the cooperative model). -/
def queuePush (cfg : RateLimitConfig) (translate : TranslateOracle)
    (now : Int) (id : Nat) (text targetLanguage : JSString)
    (priority : Int) (s : MiddlewareState) :
    MiddlewareState × List (QueueItem × Outcome) :=
  let queueItem : QueueItem :=
    ⟨id, text, targetLanguage, priority, estimateTokens text, now⟩
  let s2 := { s with translationQueue := s.translationQueue ++ [queueItem] }
  match canMakeRequest cfg now queueItem.estimatedTokens s2 with
  | (true, s3) => processQueue cfg translate now s3
  | (false, s3) => (s3, [])

/-- queueTranslation (ts:328-359): serve truthy cache hits immediately;
otherwise push a new queue item and maybe run an eager tick. -/
def queueTranslation (cfg : RateLimitConfig) (translate : TranslateOracle)
    (now : Int) (id : Nat) (text targetLanguage : JSString) (priority : Int)
    (s : MiddlewareState) : MiddlewareState × List (QueueItem × Outcome) :=
  let g := getFromCache now text targetLanguage s
  match g.1 with
  | some cachedResult =>
    if cachedResult = [] then
      queuePush cfg translate now id text targetLanguage priority g.2
    else (g.2, [])
  | none => queuePush cfg translate now id text targetLanguage priority g.2

/-- The operations a caller or the timer can perform against the
scheduler: enqueue a translation request (queueTranslation) or run one
periodic tick (processQueue). Each operation carries its own clock value
and translate oracle. -/
inductive SchedulerOp where
  | enqueue (now : Int) (id : Nat) (text targetLanguage : JSString)
      (priority : Int) (translate : TranslateOracle)
  | tick (now : Int) (translate : TranslateOracle)

def runOp (cfg : RateLimitConfig) (s : MiddlewareState) :
    SchedulerOp → MiddlewareState
  | .enqueue now id text lang priority translate =>
    (queueTranslation cfg translate now id text lang priority s).1
  | .tick now translate => (processQueue cfg translate now s).1

def runOps (cfg : RateLimitConfig) (ops : List SchedulerOp)
    (s : MiddlewareState) : MiddlewareState :=
  ops.foldl (runOp cfg) s

/-- Number of admission records inside the trailing 60-second window at
instant t. -/
def requestsInWindow (t : Int) (s : MiddlewareState) : Nat :=
  (pruneTimes t s.requestTimes).length

/-- Sum of recorded token usage inside the trailing 60-second window at
instant t. -/
def tokensInWindow (t : Int) (s : MiddlewareState) : Nat :=
  sumTokens (pruneUsage t s.tokenUsage)

/-- A state whose rate windows have been pruned at instant now. -/
def prunedState (now : Int) (s : MiddlewareState) : MiddlewareState :=
  { s with requestTimes := pruneTimes now s.requestTimes,
           tokenUsage := pruneUsage now s.tokenUsage }

/-- The invariant actually maintained by the scheduler: the request list
never exceeds rpm entries, and four times the recorded token sum never
exceeds five times tpm (i.e. the sum is at most tpm + tpm/4: one batch
budget beyond the per-minute limit). -/
def RateInv (cfg : RateLimitConfig) (s : MiddlewareState) : Prop :=
  s.requestTimes.length ≤ cfg.rpm ∧ 4 * sumTokens s.tokenUsage ≤ 5 * cfg.tpm

/-- The fingerprint of a queue item: the dedup key computed by
processBatch (ts:279). -/
def keyOf (it : QueueItem) : JSString :=
  getCacheKey it.text it.targetLanguage

/-- The three conditions canMakeRequest checks for a single candidate
token count: pruned request count below rpm, pruned token sum plus the
candidate within tpm, and active requests below the concurrency cap. -/
def Admissible (cfg : RateLimitConfig) (now : Int) (tok : Nat)
    (s : MiddlewareState) : Prop :=
  (pruneTimes now s.requestTimes).length < cfg.rpm ∧
  sumTokens (pruneUsage now s.tokenUsage) + tok ≤ cfg.tpm ∧
  s.activeRequests < cfg.maxConcurrent

-- ContentClassifier: detectChineseContent (ts:468-529) and its regex
-- preprocessing pipeline (ts:481-496), modelled on UTF-16 code units with
-- JS global-replace semantics: scan left to right, attempt a match at
-- each position, replace a match with one space and continue after it.

/-- The extended class matched first (ts:474): CJK unified ideographs,
extension A, compatibility ideographs, CJK punctuation and full-width
forms. -/
def isChineseWide (c : Nat) : Bool :=
  (0x4E00 ≤ c && c ≤ 0x9FFF) || (0x3400 ≤ c && c ≤ 0x4DBF) ||
  (0xF900 ≤ c && c ≤ 0xFAFF) || (0x3000 ≤ c && c ≤ 0x303F) ||
  (0xFF00 ≤ c && c ≤ 0xFFEF)

/-- The class used for the post-strip recount (ts:499): as above without
the punctuation and full-width blocks. -/
def isChineseNarrow (c : Nat) : Bool :=
  (0x4E00 ≤ c && c ≤ 0x9FFF) || (0x3400 ≤ c && c ≤ 0x4DBF) ||
  (0xF900 ≤ c && c ≤ 0xFAFF)

def isAsciiLetter (c : Nat) : Bool :=
  (0x41 ≤ c && c ≤ 0x5A) || (0x61 ≤ c && c ≤ 0x7A)

def isAsciiDigit (c : Nat) : Bool := 0x30 ≤ c && c ≤ 0x39

/-- A matcher returns, for a match anchored at the head of the suffix,
the match length minus one (every pattern here matches at least one code
unit). -/
abbrev Matcher := JSString → Option Nat

/-- The global-replace loop, with an explicit step bound so that the
recursion is structural (every match consumes at least one code unit, so
a bound of the string's length is never exhausted): attempt the matcher
at every position, emit one space for a match and skip it, otherwise
keep the character. -/
def replaceScanAux (m : Matcher) : Nat → JSString → JSString
  | 0, _ => []
  | _ + 1, [] => []
  | fuel + 1, c :: rest =>
    match m (c :: rest) with
    | some n => 0x20 :: replaceScanAux m fuel (rest.drop n)
    | none => c :: replaceScanAux m fuel rest

/-- Global replace of every match by one space. -/
def replaceScan (m : Matcher) (s : JSString) : JSString :=
  replaceScanAux m s.length s

/-- Start-of-line test for a multiline ^: start of input or right after a
line terminator (LF, CR, LS, PS). -/
def lineStart : Option Nat → Bool
  | none => true
  | some c => c == 0xA || c == 0xD || c == 0x2028 || c == 0x2029

/-- Global replace for a ^-anchored multiline pattern, with the same
step bound: the matcher is attempted only at line starts; the previous
original character is threaded through (after a match it is the last
matched character). -/
def replaceScanMAux (m : Matcher) : Nat → Option Nat → JSString → JSString
  | 0, _, _ => []
  | _ + 1, _, [] => []
  | fuel + 1, prev, c :: rest =>
    if lineStart prev then
      match m (c :: rest) with
      | some n =>
        0x20 :: replaceScanMAux m fuel ((c :: rest).get? n) (rest.drop n)
      | none => c :: replaceScanMAux m fuel (some c) rest
    else c :: replaceScanMAux m fuel (some c) rest

/-- Global replace of every line-anchored match by one space. -/
def replaceScanM (m : Matcher) (prev : Option Nat) (s : JSString) : JSString :=
  replaceScanMAux m s.length prev s

/-- Body characters of the URL pattern: [^\s一-鿿]. -/
def urlBodyChar (c : Nat) : Bool := ! jsSpaceChar c && ! isChineseMain c

def urlTail (pre : Nat) (rest2 : JSString) : Option Nat :=
  let run := rest2.takeWhile urlBodyChar
  if run.length = 0 then none else some (pre + run.length - 1)

/-- Matcher for /https?:\/\/[^\s一-鿿]+/ (ts:484). -/
def urlMatcher : Matcher
  | 104 :: 116 :: 116 :: 112 :: 115 :: 58 :: 47 :: 47 :: rest2 =>
    urlTail 8 rest2
  | 104 :: 116 :: 116 :: 112 :: 58 :: 47 :: 47 :: rest2 => urlTail 7 rest2
  | _ => none

/-- Matcher for /[a-zA-Z]:[\\\/](?![\s\S]*[一-鿿])[^\s]+/
(ts:486): the negative lookahead succeeds exactly when no main-CJK
character occurs anywhere in the remaining input. -/
def pathMatcher : Matcher
  | c1 :: 58 :: c3 :: rest =>
    if isAsciiLetter c1 && (c3 == 92 || c3 == 47)
        && rest.all (fun c => ! isChineseMain c) then
      let run := rest.takeWhile (fun c => ! jsSpaceChar c)
      if run.length = 0 then none else some (2 + run.length)
    else none
  | _ => none

/-- Case-insensitive literal word match (the /i flag restricted to the
ASCII letters of the alternation words); returns the rest on success. -/
def matchWordCI : JSString → JSString → Option JSString
  | [], s => some s
  | _ :: _, [] => none
  | w :: ws, c :: cs => if jsToLowerChar c == w then matchWordCI ws cs else none

/-- One alternation branch of the error-prefix pattern
^\s*(error|warning|info|debug):\s*(?![\s\S]*[一-鿿]) after the
leading \s* of length sp has been consumed: the word, a colon, greedy
\s*, then the lookahead (whitespace is never main-CJK, so shrinking the
greedy \s* cannot rescue a failed lookahead). -/
def errorWordTail (w : JSString) (sp : Nat) (rest : JSString) : Option Nat :=
  match matchWordCI w rest with
  | some r1 =>
    match r1 with
    | 58 :: r2 =>
      let sp2 := (r2.takeWhile jsSpaceChar).length
      if (r2.drop sp2).all (fun c => ! isChineseMain c) then
        some (sp + w.length + sp2)
      else none
    | _ => none
  | none => none

/-- Matcher for the ^-anchored error-prefix pattern (ts:488); the four
words have distinct first letters, so alternation order cannot matter. -/
def errorPrefixMatcher : Matcher := fun s =>
  let sp := (s.takeWhile jsSpaceChar).length
  let rest := s.drop sp
  match errorWordTail [101, 114, 114, 111, 114] sp rest with
  | some n => some n
  | none =>
  match errorWordTail [119, 97, 114, 110, 105, 110, 103] sp rest with
  | some n => some n
  | none =>
  match errorWordTail [105, 110, 102, 111] sp rest with
  | some n => some n
  | none => errorWordTail [100, 101, 98, 117, 103] sp rest

/-- Index of the earliest occurrence of three consecutive backticks. -/
def findTripleBacktick : JSString → Option Nat
  | 96 :: 96 :: 96 :: _ => some 0
  | _ :: rest => (findTripleBacktick rest).map (· + 1)
  | [] => none

/-- Matcher for the code-fence pattern
/```(?![\s\S]*[一-鿿])[\s\S]*?```/ (ts:490): lookahead over the
whole remaining input, then the lazy body up to the earliest closing
fence. -/
def fenceMatcher : Matcher
  | 96 :: 96 :: 96 :: rest =>
    if rest.all (fun c => ! isChineseMain c) then
      match findTripleBacktick rest with
      | some j => some (j + 5)
      | none => none
    else none
  | _ => none

/-- Matcher for the inline-code pattern
/`(?![^`]*[一-鿿])[^`]+`/ (ts:492): the lookahead inspects the
maximal backtick-free run, which is also exactly what [^`]+ can consume,
and the closing backtick must follow. -/
def inlineCodeMatcher : Matcher
  | 96 :: rest =>
    let run := rest.takeWhile (fun c => ! (c == 96))
    if run.all (fun c => ! isChineseMain c) then
      match rest.drop run.length with
      | 96 :: _ => if run.length = 0 then none else some (run.length + 1)
      | _ => none
    else none
  | _ => none

/-- Local-part class [a-zA-Z0-9._%+-] of the email pattern. -/
def isLocalChar (c : Nat) : Bool :=
  isAsciiLetter c || isAsciiDigit c || c == 46 || c == 95 || c == 37 ||
  c == 43 || c == 45

/-- Domain class [a-zA-Z0-9.-] of the email pattern. -/
def isDomainChar (c : Nat) : Bool :=
  isAsciiLetter c || isAsciiDigit c || c == 46 || c == 45

/-- Backtracking of [a-zA-Z0-9.-]+\.[a-zA-Z]{2,} inside the maximal
domain-class run D: the greedy domain part gives back as little as
possible, i.e. the split is at the largest index j ≥ 1 with D[j] a dot
followed by at least two ASCII letters; the greedy letter run then ends
the match. Returns the matched length within D. -/
def emailSplitFrom (D : JSString) : Nat → Option Nat
  | 0 => none
  | j + 1 =>
    if D.get? (j + 1) = some 46 ∧
        2 ≤ ((D.drop (j + 2)).takeWhile isAsciiLetter).length then
      some (j + 2 + ((D.drop (j + 2)).takeWhile isAsciiLetter).length)
    else emailSplitFrom D j

/-- Matcher for /[a-zA-Z0-9._%+-]+@[a-zA-Z0-9.-]+\.[a-zA-Z]{2,}/
(ts:494). -/
def emailMatcher : Matcher := fun s =>
  let L := s.takeWhile isLocalChar
  if L.length = 0 then none
  else
    match s.drop L.length with
    | 64 :: rest2 =>
      let D := rest2.takeWhile isDomainChar
      match emailSplitFrom D (D.length - 1) with
      | some dlen => some (L.length + dlen)
      | none => none
    | _ => none

/-- Matcher for /\s+/ (ts:495). -/
def spaceRunMatcher : Matcher := fun s =>
  let run := s.takeWhile jsSpaceChar
  if run.length = 0 then none else some (run.length - 1)

/-- The full preprocessing pipeline of detectChineseContent
(ts:481-496): six regex replaces, whitespace collapse, trim. -/
def preprocessText (text : JSString) : JSString :=
  jsTrim (replaceScan spaceRunMatcher
    (replaceScan emailMatcher
      (replaceScan inlineCodeMatcher
        (replaceScan fenceMatcher
          (replaceScanM errorPrefixMatcher none
            (replaceScan pathMatcher
              (replaceScan urlMatcher text)))))))

/-- detectChineseContent (ts:468-529). The floating-point ratio tests
chineseCount/totalLength >= 0.1 and originalCount/length >= 0.08 are
modelled as the exact rational comparisons 10*count >= total and
100*count >= 8*length (the operands are far from the representation
boundary for all inputs of interest). When chineseCount >= 1 the
totalLength > 0 guard of the source is automatically true. -/
def detectChineseContent (text : JSString) : Bool :=
  if text = [] ∨ jsTrim text = [] then false
  else
    let chineseChars := text.filter isChineseWide
    if chineseChars = [] then false
    else
      let preprocessedText := preprocessText text
      let finalChineseChars := preprocessedText.filter isChineseNarrow
      let totalLength := preprocessedText.length
      let chineseCount := finalChineseChars.length
      if 1 ≤ chineseCount then
        if text.length ≤ 20 then true
        else
          decide (totalLength ≤ 10 * chineseCount) ||
          decide (8 * text.length ≤ 100 * chineseChars.length) ||
          decide (5 ≤ chineseCount)
      else false

structure TranslationResult where
  translatedText : JSString
  originalText : JSString
  wasTranslated : Bool
  detectedLanguage : JSString
deriving Repr, DecidableEq

/-- detectLanguage (ts:455-463): the external detector result is the
oracle; on its failure fall back to the content heuristic, giving "zh"
or "en". -/
def detectLanguage (detectO : Except JSString JSString) (text : JSString) :
    JSString :=
  match detectO with
  | Except.ok lang => lang
  | Except.error _ =>
    if detectChineseContent text then [122, 104] else [101, 110]

/-- translateUserInput (ts:572-683), with the awaited language-detector
and queued-translation results supplied as oracles. The model is a total
function: every failure path of the source is caught and degrades to the
original text, so no exception escapes. The Bool component records
whether queueTranslation was invoked (nothing can be enqueued when it is
false). -/
def translateUserInput (enabled : Bool) (detectO : Except JSString JSString)
    (queueO : Except JSString JSString) (userInput : JSString) :
    TranslationResult × Bool :=
  if isSlashCommand userInput then
    (⟨userInput, userInput, false, detectLanguage detectO userInput⟩, false)
  else if ¬ enabled then
    (⟨userInput, userInput, false, detectLanguage detectO userInput⟩, false)
  else
    let detectedLanguage := detectLanguage detectO userInput
    let isChineseByCode :=
      List.isPrefixOf [122, 104] (jsToLower detectedLanguage)
    let isChineseByContent := detectChineseContent userInput
    let isAsciiOnly := userInput.all (fun c => c ≤ 0x7F)
    let shouldTranslate :=
      isChineseByContent || (isChineseByCode && ! isAsciiOnly)
    if shouldTranslate then
      match queueO with
      | Except.ok translatedText =>
        if translatedText ≠ [] ∧ jsTrim translatedText ≠ jsTrim userInput then
          (⟨translatedText, userInput, true, detectedLanguage⟩, true)
        else (⟨userInput, userInput, false, detectedLanguage⟩, true)
      | Except.error _ =>
        (⟨userInput, userInput, false, detectedLanguage⟩, true)
    else (⟨userInput, userInput, false, detectedLanguage⟩, false)

/-- The first boundary example of the specification: the two-character
text "ni hao" (u4f60 u597d). -/
def niHao : JSString := [0x4F60, 0x597D]

/-- The second boundary example: "a" repeated 1000 times followed by
u4f60. -/
def longAsciiOneChinese : JSString := List.replicate 1000 97 ++ [0x4F60]

-- Concrete data used by witness theorems.

def witEntry : CacheEntry := ⟨[], 0, 0⟩

/-- A cache holding exactly maxCacheSize entries with pairwise distinct
keys; key [0] is the oldest by insertion order. -/
def witCacheFull : CacheMap :=
  ([0], witEntry) :: (List.range 999).map (fun n => ([n + 1], witEntry))

def witStateFull : MiddlewareState :=
  { initialState with translationCache := witCacheFull }

def c5Key : JSString := getCacheKey [97] [122]

def c5State : MiddlewareState :=
  { initialState with translationCache := [(c5Key, ⟨[98], 0, 1⟩)] }

/-- The default rate-limit configuration (ts:43-48). -/
def defaultRateLimitConfig : RateLimitConfig := ⟨950, 75000, 5, 10⟩

/-- An oracle for which every translation succeeds with the string "x". -/
def okOracle : TranslateOracle := fun _ _ => Except.ok [120]

/-- State with one expired request record, used to exhibit that
canMakeRequest mutates the window sequences. -/
def c7State : MiddlewareState :=
  { initialState with requestTimes := [0], tokenUsage := [(0, 7)] }

/-- Configuration for the rate-ceiling counterexamples: rpm 10, tpm 100,
maxConcurrent 5, batchSize 10. -/
def cfgCex : RateLimitConfig := ⟨10, 100, 5, 10⟩

/-- Queue items for the C2 counterexample: an 84-character item
(21 tokens) followed by a 16-character item (4 tokens), equal priority. -/
def c2Items : List QueueItem :=
  [⟨6, List.replicate 84 101, [101, 110], 1, 21, 9⟩,
   ⟨7, List.replicate 16 102, [101, 110], 1, 4, 10⟩]

/-- State with 76 window tokens already recorded, used for the C2
counterexample. -/
def c2State : MiddlewareState :=
  { initialState with
      requestTimes := [5, 6, 7, 8],
      tokenUsage := [(5, 25), (6, 25), (7, 25), (8, 1)],
      translationQueue := c2Items }

/-- Operation trace for the C1 counterexample, starting from the initial
state: four solo batches raise the window token sum to 80, a 21-token
item is enqueued while inadmissible, a 4-token item is enqueued behind it
(its eager tick assembles an empty batch because the 21-token head is
inadmissible), and at t = 60001 the first usage record has expired so
both queued items are admitted as one batch of 25 tokens on top of the 76
tokens still inside the window. -/
def cexTrace : List SchedulerOp :=
  [SchedulerOp.enqueue 0 1 (List.replicate 16 103) [101, 110] 1 okOracle,
   SchedulerOp.enqueue 5 2 (List.replicate 100 97) [101, 110] 1 okOracle,
   SchedulerOp.enqueue 6 3 (List.replicate 100 98) [101, 110] 1 okOracle,
   SchedulerOp.enqueue 7 4 (List.replicate 100 99) [101, 110] 1 okOracle,
   SchedulerOp.enqueue 8 5 (List.replicate 4 100) [101, 110] 1 okOracle,
   SchedulerOp.enqueue 9 6 (List.replicate 84 101) [101, 110] 1 okOracle,
   SchedulerOp.enqueue 10 7 (List.replicate 16 102) [101, 110] 1 okOracle,
   SchedulerOp.tick 60001 okOracle]

/-- Two queue items sharing one fingerprint (same text "a", same target
language "en"), used by the C3 witness. -/
def c3Items : List QueueItem :=
  [⟨1, [97], [101, 110], 1, 1, 0⟩, ⟨2, [97], [101, 110], 1, 1, 0⟩]

-- Basic association-list lemmas for the cache model.

theorem mapSet_length_le (k : JSString) (v : CacheEntry) :
    ∀ m : CacheMap, (mapSet k v m).length ≤ m.length + 1 := by
  intro m
  induction m with
  | nil => simp [mapSet]
  | cons hd tl ih =>
    obtain ⟨k2, v2⟩ := hd
    by_cases h : k2 = k
    · simp [mapSet, h]
    · simp only [mapSet, if_neg h, List.length_cons]
      omega

theorem mapDelete_head (k0 : JSString) (e0 : CacheEntry) (rest : CacheMap) :
    mapDelete k0 ((k0, e0) :: rest) = rest := by
  simp [mapDelete]

theorem mapGet_mapSet_self (k : JSString) (v : CacheEntry) :
    ∀ m : CacheMap, mapGet k (mapSet k v m) = some v := by
  intro m
  induction m with
  | nil => simp [mapSet, mapGet]
  | cons hd tl ih =>
    obtain ⟨k2, v2⟩ := hd
    by_cases h : k2 = k
    · simp [mapSet, mapGet, h]
    · simp [mapSet, mapGet, h, ih]

theorem mapGet_mapSet_ne (k k2 : JSString) (v : CacheEntry) (hne : k2 ≠ k) :
    ∀ m : CacheMap, mapGet k2 (mapSet k v m) = mapGet k2 m := by
  intro m
  induction m with
  | nil =>
    simp only [mapSet, mapGet]
    rw [if_neg (fun h => hne h.symm)]
  | cons hd tl ih =>
    obtain ⟨k3, v3⟩ := hd
    by_cases h : k3 = k
    · subst h
      simp only [mapSet, if_pos rfl]
      by_cases h2 : k3 = k2
      · exact absurd h2.symm hne
      · simp [mapGet, h2]
    · simp only [mapSet, if_neg h]
      by_cases h2 : k3 = k2
      · simp [mapGet, h2]
      · simp [mapGet, h2, ih]

theorem mapGet_eq_none_of_not_mem (k : JSString) :
    ∀ m : CacheMap, k ∉ m.map Prod.fst → mapGet k m = none := by
  intro m
  induction m with
  | nil => intro _; rfl
  | cons hd tl ih =>
    obtain ⟨k2, v2⟩ := hd
    intro h
    simp only [List.map_cons, List.mem_cons] at h
    push_neg at h
    have hne : k2 ≠ k := fun he => h.1 he.symm
    simp [mapGet, hne, ih h.2]

theorem mapGet_isSome_of_mapSet (k k2 : JSString) (v : CacheEntry)
    (m : CacheMap) (h : (mapGet k2 m).isSome) :
    (mapGet k2 (mapSet k v m)).isSome := by
  by_cases he : k2 = k
  · subst he
    simp [mapGet_mapSet_self]
  · rw [mapGet_mapSet_ne k k2 v he]
    exact h

/-- Claim C4, size half: a single put never raises the size above the
bound, assuming it held before. -/
theorem storeToCache_size_le (now : Int) (text lang result : JSString)
    (tokens : Nat) (s : MiddlewareState)
    (h : s.translationCache.length ≤ maxCacheSize) :
    (storeToCache now text lang result tokens s).translationCache.length ≤
      maxCacheSize := by
  unfold storeToCache
  by_cases hfull : maxCacheSize ≤ s.translationCache.length
  · have hlen : s.translationCache.length = maxCacheSize := le_antisymm h hfull
    match hm : s.translationCache with
    | [] =>
      rw [hm] at hlen
      simp only [List.length_nil] at hlen
      exact absurd hlen.symm (by decide)
    | (k0, e0) :: rest =>
      simp only [hm, if_pos (hm ▸ hfull), mapDelete_head]
      have h2 : rest.length + 1 = maxCacheSize := by
        simpa [hm] using hlen
      calc (mapSet (getCacheKey text lang) ⟨result, now, tokens⟩ rest).length
          ≤ rest.length + 1 := mapSet_length_le _ _ _
        _ = maxCacheSize := h2
  · simp only [if_neg hfull]
    have := mapSet_length_le (getCacheKey text lang) ⟨result, now, tokens⟩
      s.translationCache
    omega

theorem mapGet_mapDelete_self (k : JSString) :
    ∀ m : CacheMap, (m.map Prod.fst).Nodup → mapGet k (mapDelete k m) = none := by
  intro m
  induction m with
  | nil => intro _; rfl
  | cons hd tl ih =>
    obtain ⟨k2, v2⟩ := hd
    intro hnd
    simp only [List.map_cons, List.nodup_cons] at hnd
    by_cases h : k2 = k
    · subst h
      simp only [mapDelete, if_pos rfl]
      exact mapGet_eq_none_of_not_mem k2 tl hnd.1
    · simp only [mapDelete, if_neg h, mapGet, if_neg h]
      exact ih hnd.2

theorem runPuts_size_le :
    ∀ (ops : List (Int × JSString × JSString × JSString × Nat))
      (s : MiddlewareState),
      s.translationCache.length ≤ maxCacheSize →
      (runPuts ops s).translationCache.length ≤ maxCacheSize := by
  intro ops
  induction ops with
  | nil => intro s h; exact h
  | cons op rest ih =>
    intro s h
    obtain ⟨now, text, lang, result, tokens⟩ := op
    exact ih _ (storeToCache_size_le now text lang result tokens s h)

/-- Claim C4: starting from the empty cache, after every sequence of put
operations the cache size is at most maxCacheSize; and a put performed
while the cache is at capacity evicts exactly the oldest entry by
insertion order (the first key of the map): that key is gone afterwards
while every other previously present key is still present (FIFO, not
LRU). -/
theorem cache_bound_and_fifo :
    (∀ ops, (runPuts ops initialState).translationCache.length ≤ maxCacheSize)
    ∧
    (∀ (now : Int) (text lang result : JSString) (tokens : Nat)
       (s : MiddlewareState) (k0 : JSString) (e0 : CacheEntry) (rest : CacheMap),
      s.translationCache = (k0, e0) :: rest →
      maxCacheSize ≤ s.translationCache.length →
      (s.translationCache.map Prod.fst).Nodup →
      getCacheKey text lang ≠ k0 →
      mapGet k0 (storeToCache now text lang result tokens s).translationCache
        = none ∧
      (∀ k, (mapGet k s.translationCache).isSome → k ≠ k0 →
        (mapGet k
          (storeToCache now text lang result tokens s).translationCache).isSome)) := by
  constructor
  · intro ops
    exact runPuts_size_le ops initialState (by decide)
  · intro now text lang result tokens s k0 e0 rest hcons hfull hnd hkey
    have hcache :
        (storeToCache now text lang result tokens s).translationCache
          = mapSet (getCacheKey text lang) ⟨result, now, tokens⟩ rest := by
      unfold storeToCache
      rw [hcons, if_pos (hcons ▸ hfull)]
      show mapSet (getCacheKey text lang) ⟨result, now, tokens⟩
        (mapDelete k0 ((k0, e0) :: rest)) = _
      rw [mapDelete_head]
    rw [hcons, List.map_cons, List.nodup_cons] at hnd
    constructor
    · rw [hcache, mapGet_mapSet_ne _ _ _ (Ne.symm hkey),
        mapGet_eq_none_of_not_mem k0 rest hnd.1]
    · intro k hk hkne
      rw [hcache]
      apply mapGet_isSome_of_mapSet
      rw [hcons] at hk
      simp only [mapGet] at hk
      rw [if_neg (fun h => hkne h.symm)] at hk
      exact hk

/-- Witness for C4 at a concrete full cache: putting a fresh key evicts
key [0] (the oldest) and retains key [3]. -/
theorem cache_bound_and_fifo_witness :
    mapGet [0]
      (storeToCache 5 [97] [101, 110] [98] 1 witStateFull).translationCache
      = none ∧
    (mapGet [3]
      (storeToCache 5 [97] [101, 110] [98] 1 witStateFull).translationCache).isSome := by
  have hnd : ((witStateFull.translationCache).map Prod.fst).Nodup := by
    show ((witCacheFull).map Prod.fst).Nodup
    unfold witCacheFull
    simp only [List.map_cons, List.map_map]
    refine List.nodup_cons.mpr ⟨?_, ?_⟩
    · intro hmem
      simp only [List.mem_map, Function.comp] at hmem
      obtain ⟨n, _, hn⟩ := hmem
      exact absurd hn (by simp)
    · refine List.Nodup.map ?_ (List.nodup_range 999)
      intro a b hab
      simpa [Function.comp] using hab
  have hlen : maxCacheSize ≤ witStateFull.translationCache.length := by
    show maxCacheSize ≤ witCacheFull.length
    unfold witCacheFull
    rw [List.length_cons, List.length_map, List.length_range]
    decide
  have h := cache_bound_and_fifo.2 5 [97] [101, 110] [98] 1 witStateFull
    [0] witEntry ((List.range 999).map (fun n => ([n + 1], witEntry)))
    rfl hlen hnd (by decide)
  exact ⟨h.1, h.2 [3] (by decide) (by decide)⟩

/-- Claim C5: getFromCache at a time strictly later than the entry's
timestamp plus the TTL reports a miss and deletes the entry; and whenever
getFromCache returns a result, the entry it came from was younger than
the TTL at lookup time (get never returns a stale entry). -/
theorem get_respects_ttl :
    (∀ (now : Int) (text lang : JSString) (s : MiddlewareState) (e : CacheEntry),
      (s.translationCache.map Prod.fst).Nodup →
      mapGet (getCacheKey text lang) s.translationCache = some e →
      e.timestamp + cacheTTL < now →
      (getFromCache now text lang s).1 = none ∧
      mapGet (getCacheKey text lang)
        ((getFromCache now text lang s).2.translationCache) = none)
    ∧
    (∀ (now : Int) (text lang : JSString) (s : MiddlewareState) (r : JSString),
      (getFromCache now text lang s).1 = some r →
      ∃ e, mapGet (getCacheKey text lang) s.translationCache = some e ∧
        e.result = r ∧ now - e.timestamp < cacheTTL) := by
  constructor
  · intro now text lang s e hnd hget hold
    have hstale : ¬ (now - e.timestamp < cacheTTL) := by omega
    constructor
    · simp only [getFromCache, hget, if_neg hstale]
    · simp only [getFromCache, hget, if_neg hstale]
      exact mapGet_mapDelete_self _ _ hnd
  · intro now text lang s r hres
    match hget : mapGet (getCacheKey text lang) s.translationCache with
    | none =>
      simp only [getFromCache, hget] at hres
      exact Option.noConfusion hres
    | some e =>
      by_cases hfresh : now - e.timestamp < cacheTTL
      · simp only [getFromCache, hget, if_pos hfresh, Option.some.injEq] at hres
        exact ⟨e, rfl, hres, hfresh⟩
      · simp only [getFromCache, hget, if_neg hfresh] at hres
        exact Option.noConfusion hres

/-- Witness for C5: a concrete entry stored at time 0 is expired at time
3600001 and deleted; at time 5 the same entry is returned fresh. -/
theorem get_respects_ttl_witness :
    ((getFromCache 3600001 [97] [122] c5State).1 = none ∧
      mapGet c5Key
        ((getFromCache 3600001 [97] [122] c5State).2.translationCache) = none) ∧
    (∃ e, mapGet c5Key c5State.translationCache = some e ∧
      e.result = [98] ∧ (5 : Int) - e.timestamp < cacheTTL) := by
  constructor
  · exact get_respects_ttl.1 3600001 [97] [122] c5State ⟨[98], 0, 1⟩
      (by decide) (by decide) (by decide)
  · exact get_respects_ttl.2 5 [97] [122] c5State [98] (by decide)

-- Rate limiter lemmas.

theorem canMakeRequest_snd (cfg : RateLimitConfig) (now : Int) (tok : Nat)
    (s : MiddlewareState) :
    (canMakeRequest cfg now tok s).2 = prunedState now s := by
  by_cases h1 : cfg.rpm ≤ (pruneTimes now s.requestTimes).length <;>
  by_cases h2 : cfg.tpm < sumTokens (pruneUsage now s.tokenUsage) + tok <;>
  by_cases h3 : cfg.maxConcurrent ≤ s.activeRequests <;>
  simp [canMakeRequest, prunedState, h1, h2, h3]

theorem canMakeRequest_true_iff (cfg : RateLimitConfig) (now : Int) (tok : Nat)
    (s : MiddlewareState) :
    (canMakeRequest cfg now tok s).1 = true ↔
      ((pruneTimes now s.requestTimes).length < cfg.rpm ∧
       sumTokens (pruneUsage now s.tokenUsage) + tok ≤ cfg.tpm ∧
       s.activeRequests < cfg.maxConcurrent) := by
  by_cases h1 : cfg.rpm ≤ (pruneTimes now s.requestTimes).length <;>
  by_cases h2 : cfg.tpm < sumTokens (pruneUsage now s.tokenUsage) + tok <;>
  by_cases h3 : cfg.maxConcurrent ≤ s.activeRequests <;>
  simp [canMakeRequest, h1, h2, h3] <;> omega

theorem pruneTimes_idem (now : Int) (ts : List Int) :
    pruneTimes now (pruneTimes now ts) = pruneTimes now ts := by
  unfold pruneTimes
  rw [List.filter_filter]
  congr 1
  funext a
  simp

theorem pruneUsage_idem (now : Int) (us : List (Int × Nat)) :
    pruneUsage now (pruneUsage now us) = pruneUsage now us := by
  unfold pruneUsage
  rw [List.filter_filter]
  congr 1
  funext a
  simp

theorem prunedState_idem (now : Int) (s : MiddlewareState) :
    prunedState now (prunedState now s) = prunedState now s := by
  simp [prunedState, pruneTimes_idem, pruneUsage_idem]

theorem pruneTimes_length_le (now : Int) (ts : List Int) :
    (pruneTimes now ts).length ≤ ts.length :=
  List.length_filter_le _ _

theorem pruneUsage_sum_le (now : Int) (us : List (Int × Nat)) :
    sumTokens (pruneUsage now us) ≤ sumTokens us := by
  induction us with
  | nil => simp [pruneUsage, sumTokens]
  | cons hd tl ih =>
    by_cases h : windowStart now < hd.1 <;>
      simp [pruneUsage, sumTokens, List.filter_cons, h] <;>
      simp [pruneUsage, sumTokens] at ih <;> omega

/-- Claim C7 counterexample: calling canMakeRequest on a state holding an
expired record does modify both the request-timestamp sequence and the
token-usage sequence (it prunes them in place). -/
theorem canMakeRequest_mutates_counterexample :
    (canMakeRequest defaultRateLimitConfig 100000 0 c7State).2.requestTimes ≠
      c7State.requestTimes ∧
    (canMakeRequest defaultRateLimitConfig 100000 0 c7State).2.tokenUsage ≠
      c7State.tokenUsage := by decide

/-- Claim C7 (amended): canMakeRequest reserves no capacity: it leaves
activeRequests, the queue and the cache untouched and appends nothing;
its only state change is pruning the two window sequences to the
trailing 60 seconds, so both windowed views at the current instant are
unchanged and every subsequent admission decision at that instant is the
same as on the original state. -/
theorem canMakeRequest_frame (cfg : RateLimitConfig) (now : Int) (tok : Nat)
    (s : MiddlewareState) :
    (canMakeRequest cfg now tok s).2.activeRequests = s.activeRequests ∧
    (canMakeRequest cfg now tok s).2.translationQueue = s.translationQueue ∧
    (canMakeRequest cfg now tok s).2.translationCache = s.translationCache ∧
    (canMakeRequest cfg now tok s).2.requestTimes
      = pruneTimes now s.requestTimes ∧
    (canMakeRequest cfg now tok s).2.tokenUsage
      = pruneUsage now s.tokenUsage ∧
    requestsInWindow now (canMakeRequest cfg now tok s).2
      = requestsInWindow now s ∧
    tokensInWindow now (canMakeRequest cfg now tok s).2
      = tokensInWindow now s ∧
    (∀ tok2, (canMakeRequest cfg now tok2 (canMakeRequest cfg now tok s).2).1
      = (canMakeRequest cfg now tok2 s).1) := by
  rw [canMakeRequest_snd]
  refine ⟨rfl, rfl, rfl, rfl, rfl, ?_, ?_, ?_⟩
  · show (pruneTimes now (pruneTimes now s.requestTimes)).length = _
    rw [pruneTimes_idem]
    rfl
  · show sumTokens (pruneUsage now (pruneUsage now s.tokenUsage)) = _
    rw [pruneUsage_idem]
    rfl
  · intro tok2
    rw [Bool.eq_iff_iff, canMakeRequest_true_iff, canMakeRequest_true_iff]
    show ((pruneTimes now (pruneTimes now s.requestTimes)).length < cfg.rpm ∧
        sumTokens (pruneUsage now (pruneUsage now s.tokenUsage)) + tok2 ≤ cfg.tpm ∧
        s.activeRequests < cfg.maxConcurrent) ↔ _
    rw [pruneTimes_idem, pruneUsage_idem]

theorem canMakeRequest_admissible_iff (cfg : RateLimitConfig) (now : Int)
    (tok : Nat) (s : MiddlewareState) :
    (canMakeRequest cfg now tok s).1 = true ↔ Admissible cfg now tok s :=
  canMakeRequest_true_iff cfg now tok s

theorem admissible_prunedState_iff (cfg : RateLimitConfig) (now : Int)
    (tok : Nat) (s : MiddlewareState) :
    Admissible cfg now tok (prunedState now s) ↔ Admissible cfg now tok s := by
  unfold Admissible prunedState
  rw [pruneTimes_idem, pruneUsage_idem]

theorem totalTokens_nil : totalTokens [] = 0 := rfl

theorem totalTokens_cons (a : QueueItem) (l : List QueueItem) :
    totalTokens (a :: l) = a.estimatedTokens + totalTokens l := by
  simp [totalTokens]

/-- Structural specification of the batch-collection walk: the collected
batch extends the accumulator with a prefix of the remaining items; the
token total is the sum over that prefix; the state is at most pruned;
every collected item passed the single-item admission check against the
(pruned) incoming state; the last budget check bounds the total; and the
walk stopped at the first item failing the size, budget or admission
check. -/
theorem collectBatch_spec (cfg : RateLimitConfig) (now : Int) :
    ∀ (items batchItems : List QueueItem) (tot : Nat) (s : MiddlewareState),
    ∃ k,
      (collectBatch cfg now items batchItems tot s).1
        = batchItems ++ items.take k ∧
      (collectBatch cfg now items batchItems tot s).2.1
        = tot + totalTokens (items.take k) ∧
      ((collectBatch cfg now items batchItems tot s).2.2 = s ∨
        (collectBatch cfg now items batchItems tot s).2.2 = prunedState now s) ∧
      (items.take k ≠ [] →
        (collectBatch cfg now items batchItems tot s).2.2 = prunedState now s) ∧
      (∀ item ∈ items.take k, Admissible cfg now item.estimatedTokens s) ∧
      (items.take k ≠ [] → 4 * (tot + totalTokens (items.take k)) ≤ cfg.tpm) ∧
      (∀ nx rest2, items.drop k = nx :: rest2 →
        cfg.batchSize ≤ batchItems.length + k ∨
        cfg.tpm < 4 * (tot + totalTokens (items.take k) + nx.estimatedTokens) ∨
        ¬ Admissible cfg now nx.estimatedTokens s) := by
  intro items
  induction items with
  | nil =>
    intro batchItems tot s
    refine ⟨0, by simp [collectBatch], by simp [collectBatch, totalTokens_nil],
      Or.inl (by simp [collectBatch]), by simp, by simp, by simp, by simp⟩
  | cons item rest ih =>
    intro batchItems tot s
    by_cases hbs : cfg.batchSize ≤ batchItems.length
    · refine ⟨0, ?_, ?_, Or.inl ?_, by simp, by simp, by simp, ?_⟩
      · simp [collectBatch, if_pos hbs]
      · simp [collectBatch, if_pos hbs, totalTokens_nil]
      · simp [collectBatch, if_pos hbs]
      · intro nx rest2 heq
        exact Or.inl (by simpa using hbs)
    · by_cases hbud : cfg.tpm < 4 * (tot + item.estimatedTokens)
      · refine ⟨0, ?_, ?_, Or.inl ?_, by simp, by simp, by simp, ?_⟩
        · simp [collectBatch, if_neg hbs, if_pos hbud]
        · simp [collectBatch, if_neg hbs, if_pos hbud, totalTokens_nil]
        · simp [collectBatch, if_neg hbs, if_pos hbud]
        · intro nx rest2 heq
          simp only [List.drop_zero] at heq
          cases heq
          refine Or.inr (Or.inl ?_)
          simpa [totalTokens_nil] using hbud
      · rcases hcmr : canMakeRequest cfg now item.estimatedTokens s with ⟨b, s2⟩
        have hs2 : s2 = prunedState now s := by
          have := canMakeRequest_snd cfg now item.estimatedTokens s
          rw [hcmr] at this
          exact this
        cases b with
        | false =>
          have hres : collectBatch cfg now (item :: rest) batchItems tot s
              = (batchItems, tot, s2) := by
            unfold collectBatch
            rw [if_neg hbs, if_neg hbud, hcmr]
          have hnotadm : ¬ Admissible cfg now item.estimatedTokens s := by
            intro hadm
            have := (canMakeRequest_admissible_iff cfg now
              item.estimatedTokens s).mpr hadm
            rw [hcmr] at this
            exact Bool.noConfusion this
          refine ⟨0, ?_, ?_, Or.inr ?_, by simp, by simp, by simp, ?_⟩
          · simp [hres]
          · simp [hres, totalTokens_nil]
          · simp [hres, hs2]
          · intro nx rest2 heq
            simp only [List.drop_zero] at heq
            cases heq
            exact Or.inr (Or.inr hnotadm)
        | true =>
          have hadm : Admissible cfg now item.estimatedTokens s := by
            apply (canMakeRequest_admissible_iff cfg now
              item.estimatedTokens s).mp
            rw [hcmr]
          have hres : collectBatch cfg now (item :: rest) batchItems tot s
              = collectBatch cfg now rest (batchItems ++ [item])
                  (tot + item.estimatedTokens) s2 := by
            conv_lhs => rw [collectBatch]
            rw [if_neg hbs, if_neg hbud, hcmr]
          obtain ⟨k, h1, h2, h3, h4, h5, h6, h7⟩ :=
            ih (batchItems ++ [item]) (tot + item.estimatedTokens) s2
          refine ⟨k + 1, ?_, ?_, ?_, ?_, ?_, ?_, ?_⟩
          · rw [hres, h1, List.take_succ_cons]
            simp
          · rw [hres, h2, List.take_succ_cons, totalTokens_cons]
            omega
          · rw [hres]
            rcases h3 with h3 | h3
            · exact Or.inr (h3.trans hs2)
            · refine Or.inr (h3.trans ?_)
              rw [hs2, prunedState_idem]
          · intro _
            rw [hres]
            rcases h3 with h3 | h3
            · exact h3.trans hs2
            · rw [h3, hs2, prunedState_idem]
          · intro x hx
            rw [List.take_succ_cons] at hx
            rcases List.mem_cons.mp hx with hx | hx
            · subst hx
              exact hadm
            · have := h5 x hx
              rw [hs2, admissible_prunedState_iff] at this
              exact this
          · intro _
            rw [List.take_succ_cons, totalTokens_cons]
            by_cases hk : rest.take k = []
            · rw [hk, totalTokens_nil]
              omega
            · have := h6 hk
              omega
          · intro nx rest2 heq
            rw [List.drop_succ_cons] at heq
            rcases h7 nx rest2 heq with h | h | h
            · refine Or.inl ?_
              rw [List.length_append, List.length_singleton] at h
              omega
            · refine Or.inr (Or.inl ?_)
              rw [List.take_succ_cons, totalTokens_cons]
              omega
            · refine Or.inr (Or.inr ?_)
              rw [hs2, admissible_prunedState_iff] at h
              exact h

/-- Claim C2 counterexample: with 76 tokens already inside the trailing
window and tpm = 100, the walk admits both queued items (21 tokens, then
4 tokens), because each candidate is checked with its own tokens alone;
an admission check evaluated against the already-accumulated batch
tokens plus the candidate would have rejected the second item, since
window plus batch reaches 101 > tpm. -/
theorem batch_walk_not_cumulative_counterexample :
    (collectBatch cfgCex 1 c2Items [] 0 c2State).1 = c2Items ∧
    cfgCex.tpm < sumTokens (pruneUsage 1 c2State.tokenUsage) +
      (collectBatch cfgCex 1 c2Items [] 0 c2State).2.1 := by decide

/-- Claim C2 (amended): during batch assembly each candidate is checked
by canMakeRequest with the candidate's own tokens alone (the accumulated
batch tokens enter only the separate tpm/4 budget guard), the collected
batch is a prefix of the walked list (no candidate is ever skipped), and
the walk stops at the first candidate failing the size, budget or
admission check. -/
theorem batch_walk_per_item_prefix_stop (cfg : RateLimitConfig) (now : Int)
    (items : List QueueItem) (s : MiddlewareState) :
    ∃ k,
      (collectBatch cfg now items [] 0 s).1 = items.take k ∧
      (∀ item ∈ items.take k, Admissible cfg now item.estimatedTokens s) ∧
      (items.take k ≠ [] → 4 * totalTokens (items.take k) ≤ cfg.tpm) ∧
      (∀ nx rest2, items.drop k = nx :: rest2 →
        cfg.batchSize ≤ k ∨
        cfg.tpm < 4 * (totalTokens (items.take k) + nx.estimatedTokens) ∨
        ¬ Admissible cfg now nx.estimatedTokens s) := by
  obtain ⟨k, h1, _, _, _, h5, h6, h7⟩ := collectBatch_spec cfg now items [] 0 s
  refine ⟨k, by simpa using h1, h5, by simpa using h6, ?_⟩
  intro nx rest2 heq
  rcases h7 nx rest2 heq with h | h | h
  · exact Or.inl (by simpa using h)
  · exact Or.inr (Or.inl (by simpa using h))
  · exact Or.inr (Or.inr h)

/-- Witness for the amended C2 at the concrete counterexample state: the
first collected item passed the single-item admission check. -/
theorem batch_walk_witness : Admissible cfgCex 1 21 c2State := by
  obtain ⟨k, h1, h2, _, _⟩ :=
    batch_walk_per_item_prefix_stop cfgCex 1 c2Items c2State
  have hbatch : (collectBatch cfgCex 1 c2Items [] 0 c2State).1 = c2Items := by
    decide
  have htake : c2Items.take k = c2Items := by rw [← h1, hbatch]
  have hmem : (⟨6, List.replicate 84 101, [101, 110], 1, 21, 9⟩ : QueueItem)
      ∈ c2Items.take k := by
    rw [htake]
    exact List.mem_cons_self _ _
  simpa using h2 _ hmem

-- Frame lemmas: cache operations never touch the rate windows.

theorem sumTokens_append (a b : List (Int × Nat)) :
    sumTokens (a ++ b) = sumTokens a + sumTokens b := by
  simp [sumTokens]

theorem getFromCache_frame (now : Int) (text lang : JSString)
    (s : MiddlewareState) :
    (getFromCache now text lang s).2.requestTimes = s.requestTimes ∧
    (getFromCache now text lang s).2.tokenUsage = s.tokenUsage ∧
    (getFromCache now text lang s).2.activeRequests = s.activeRequests ∧
    (getFromCache now text lang s).2.translationQueue = s.translationQueue := by
  unfold getFromCache
  dsimp only
  cases mapGet (getCacheKey text lang) s.translationCache with
  | none => exact ⟨rfl, rfl, rfl, rfl⟩
  | some cached =>
    by_cases h : now - cached.timestamp < cacheTTL
    · simp [if_pos h]
    · simp [if_neg h]

theorem storeToCache_frame (now : Int) (text lang result : JSString)
    (tokens : Nat) (s : MiddlewareState) :
    (storeToCache now text lang result tokens s).requestTimes
      = s.requestTimes ∧
    (storeToCache now text lang result tokens s).tokenUsage = s.tokenUsage ∧
    (storeToCache now text lang result tokens s).activeRequests
      = s.activeRequests ∧
    (storeToCache now text lang result tokens s).translationQueue
      = s.translationQueue :=
  ⟨rfl, rfl, rfl, rfl⟩

theorem groupTranslate_frame (translate : TranslateOracle) (now : Int)
    (firstItem : QueueItem) (dups : List QueueItem) (s : MiddlewareState) :
    (groupTranslate translate now firstItem dups s).1.requestTimes
      = s.requestTimes ∧
    (groupTranslate translate now firstItem dups s).1.tokenUsage
      = s.tokenUsage ∧
    (groupTranslate translate now firstItem dups s).1.activeRequests
      = s.activeRequests ∧
    (groupTranslate translate now firstItem dups s).1.translationQueue
      = s.translationQueue := by
  unfold groupTranslate
  dsimp only
  cases translate firstItem.text firstItem.targetLanguage with
  | error e => simp
  | ok r =>
    by_cases h : r = []
    · simp [if_pos h]
    · simp only [if_neg h]
      exact storeToCache_frame now firstItem.text firstItem.targetLanguage r
        firstItem.estimatedTokens s

theorem processGroup_frame (translate : TranslateOracle) (now : Int)
    (dups : List QueueItem) (s : MiddlewareState) :
    (processGroup translate now dups s).1.requestTimes = s.requestTimes ∧
    (processGroup translate now dups s).1.tokenUsage = s.tokenUsage ∧
    (processGroup translate now dups s).1.activeRequests = s.activeRequests ∧
    (processGroup translate now dups s).1.translationQueue
      = s.translationQueue := by
  cases dups with
  | nil => exact ⟨rfl, rfl, rfl, rfl⟩
  | cons firstItem tail =>
    have hf := getFromCache_frame now firstItem.text firstItem.targetLanguage s
    unfold processGroup
    dsimp only
    rcases hg : getFromCache now firstItem.text firstItem.targetLanguage s
      with ⟨o, s1⟩
    rw [hg] at hf
    have hgt := groupTranslate_frame translate now firstItem
      (firstItem :: tail) s1
    cases o with
    | some cached =>
      by_cases h : cached = []
      · simp only [if_pos h]
        exact ⟨hgt.1.trans hf.1, hgt.2.1.trans hf.2.1,
          hgt.2.2.1.trans hf.2.2.1, hgt.2.2.2.trans hf.2.2.2⟩
      · simp only [if_neg h]
        exact hf
    | none =>
      exact ⟨hgt.1.trans hf.1, hgt.2.1.trans hf.2.1,
        hgt.2.2.1.trans hf.2.2.1, hgt.2.2.2.trans hf.2.2.2⟩

theorem processGroups_frame (translate : TranslateOracle) (now : Int) :
    ∀ (groups : List (JSString × List QueueItem)) (s : MiddlewareState),
    (processGroups translate now groups s).1.requestTimes = s.requestTimes ∧
    (processGroups translate now groups s).1.tokenUsage = s.tokenUsage ∧
    (processGroups translate now groups s).1.activeRequests
      = s.activeRequests ∧
    (processGroups translate now groups s).1.translationQueue
      = s.translationQueue := by
  intro groups
  induction groups with
  | nil => intro s; exact ⟨rfl, rfl, rfl, rfl⟩
  | cons g rest ih =>
    intro s
    obtain ⟨gk, dups⟩ := g
    have h1 := processGroup_frame translate now dups s
    have h2 := ih (processGroup translate now dups s).1
    exact ⟨h2.1.trans h1.1, h2.2.1.trans h1.2.1,
      h2.2.2.1.trans h1.2.2.1, h2.2.2.2.trans h1.2.2.2⟩

/-- Net effect of a dispatched batch on the rate windows: one timestamp
and one usage record for the whole batch, activeRequests unchanged
(incremented then decremented), queue untouched. -/
theorem processBatch_state (translate : TranslateOracle) (now : Int)
    (items : List QueueItem) (s : MiddlewareState) (hne : ¬ items = []) :
    (processBatch translate now items s).1.requestTimes
      = s.requestTimes ++ [now] ∧
    (processBatch translate now items s).1.tokenUsage
      = s.tokenUsage ++ [(now, totalTokens items)] ∧
    (processBatch translate now items s).1.activeRequests
      = s.activeRequests ∧
    (processBatch translate now items s).1.translationQueue
      = s.translationQueue := by
  have hpg := processGroups_frame translate now (groupByKey items [])
    (recordRequest now (totalTokens items) s)
  unfold processBatch
  rw [if_neg hne]
  refine ⟨hpg.1, hpg.2.1, ?_, hpg.2.2.2⟩
  show (processGroups translate now (groupByKey items [])
    (recordRequest now (totalTokens items) s)).1.activeRequests - 1 = _
  rw [hpg.2.2.1]
  show s.activeRequests + 1 - 1 = s.activeRequests
  omega

theorem rateInv_prunedState (cfg : RateLimitConfig) (now : Int)
    (s : MiddlewareState) (h : RateInv cfg s) :
    RateInv cfg (prunedState now s) := by
  constructor
  · exact le_trans (pruneTimes_length_le now s.requestTimes) h.1
  · exact le_trans (Nat.mul_le_mul_left 4 (pruneUsage_sum_le now s.tokenUsage))
      h.2

theorem processQueue_rateInv (cfg : RateLimitConfig)
    (translate : TranslateOracle) (now : Int) (s : MiddlewareState)
    (h : RateInv cfg s) :
    RateInv cfg (processQueue cfg translate now s).1 := by
  unfold processQueue
  by_cases hq : s.translationQueue = []
  · rw [if_pos hq]
    exact h
  · rw [if_neg hq]
    dsimp only
    set s1 : MiddlewareState :=
      { s with translationQueue := sortByPriority s.translationQueue } with hs1
    have h1 : RateInv cfg s1 := h
    set c := collectBatch cfg now (sortByPriority s.translationQueue) [] 0 s1
      with hcdef
    obtain ⟨k, hb1, hb2, hb3, hb4, hb5, hb6, hb7⟩ :=
      collectBatch_spec cfg now (sortByPriority s.translationQueue) [] 0 s1
    rw [← hcdef] at hb1 hb3 hb4
    split
    next hempty =>
      rcases hb3 with h3 | h3
      · rw [h3]
        exact h1
      · rw [h3]
        exact rateInv_prunedState cfg now _ h1
    next hempty =>
      have htk : ¬ (sortByPriority s.translationQueue).take k = [] := by
        intro hcon
        apply hempty
        rw [hb1, hcon, List.append_nil]
      have hstate : c.2.2 = prunedState now s1 := hb4 htk
      obtain ⟨nx, hnx⟩ := List.exists_mem_of_ne_nil _ htk
      have hadm := hb5 nx hnx
      have hpb := processBatch_state translate now c.1 c.2.2 hempty
      have hreq : (processBatch translate now c.1 c.2.2).1.requestTimes
          = pruneTimes now s.requestTimes ++ [now] := by
        rw [hpb.1, hstate]
        rfl
      have htok : (processBatch translate now c.1 c.2.2).1.tokenUsage
          = pruneUsage now s.tokenUsage ++ [(now, totalTokens c.1)] := by
        rw [hpb.2.1, hstate]
        rfl
      constructor
      · show (processBatch translate now c.1 c.2.2).1.requestTimes.length
          ≤ cfg.rpm
        rw [hreq, List.length_append, List.length_singleton]
        have h5 : (pruneTimes now s.requestTimes).length < cfg.rpm := hadm.1
        omega
      · show 4 * sumTokens (processBatch translate now c.1 c.2.2).1.tokenUsage
          ≤ 5 * cfg.tpm
        rw [htok, sumTokens_append]
        have hsum : sumTokens (pruneUsage now s.tokenUsage)
            + nx.estimatedTokens ≤ cfg.tpm := hadm.2.1
        have hT : 4 * (0 + totalTokens
            ((sortByPriority s.translationQueue).take k)) ≤ cfg.tpm := hb6 htk
        have hTc : totalTokens c.1
            = totalTokens ((sortByPriority s.translationQueue).take k) := by
          rw [hb1]
          simp
        have hone : sumTokens [(now, totalTokens c.1)] = totalTokens c.1 := by
          simp [sumTokens]
        rw [hone, hTc]
        omega

theorem queuePush_rateInv (cfg : RateLimitConfig)
    (translate : TranslateOracle) (now : Int) (id : Nat)
    (text lang : JSString) (priority : Int) (s : MiddlewareState)
    (h : RateInv cfg s) :
    RateInv cfg (queuePush cfg translate now id text lang priority s).1 := by
  have h2 : RateInv cfg ({ s with translationQueue :=
    s.translationQueue ++ [⟨id, text, lang, priority,
      estimateTokens text, now⟩] }) := h
  unfold queuePush
  dsimp only
  split
  next s3 heq =>
    have hs3 := congrArg Prod.snd heq
    rw [canMakeRequest_snd] at hs3
    have hs3b : prunedState now ({ s with translationQueue :=
      s.translationQueue ++ [⟨id, text, lang, priority,
        estimateTokens text, now⟩] }) = s3 := hs3
    have h3 : RateInv cfg s3 := by
      rw [← hs3b]
      exact rateInv_prunedState cfg now _ h2
    exact processQueue_rateInv cfg translate now s3 h3
  next s3 heq =>
    have hs3 := congrArg Prod.snd heq
    rw [canMakeRequest_snd] at hs3
    have hs3b : prunedState now ({ s with translationQueue :=
      s.translationQueue ++ [⟨id, text, lang, priority,
        estimateTokens text, now⟩] }) = s3 := hs3
    show RateInv cfg s3
    rw [← hs3b]
    exact rateInv_prunedState cfg now _ h2

theorem queueTranslation_rateInv (cfg : RateLimitConfig)
    (translate : TranslateOracle) (now : Int) (id : Nat)
    (text lang : JSString) (priority : Int) (s : MiddlewareState)
    (h : RateInv cfg s) :
    RateInv cfg
      (queueTranslation cfg translate now id text lang priority s).1 := by
  unfold queueTranslation
  have hf := getFromCache_frame now text lang s
  rcases hg : getFromCache now text lang s with ⟨o, s1⟩
  rw [hg] at hf
  have h1 : RateInv cfg s1 := by
    constructor
    · rw [hf.1]
      exact h.1
    · rw [hf.2.1]
      exact h.2
  cases o with
  | some cached =>
    by_cases hc : cached = []
    · simp only [if_pos hc]
      exact queuePush_rateInv cfg translate now id text lang priority s1 h1
    · simp only [if_neg hc]
      exact h1
  | none => exact queuePush_rateInv cfg translate now id text lang priority s1 h1

theorem rateInv_initial (cfg : RateLimitConfig) : RateInv cfg initialState := by
  constructor
  · show (0 : Nat) ≤ cfg.rpm
    exact Nat.zero_le _
  · show 4 * 0 ≤ 5 * cfg.tpm
    omega

theorem runOps_rateInv (cfg : RateLimitConfig) (ops : List SchedulerOp) :
    ∀ s, RateInv cfg s → RateInv cfg (runOps cfg ops s) := by
  induction ops with
  | nil => intro s h; exact h
  | cons op rest ih =>
    intro s h
    show RateInv cfg (runOps cfg rest (runOp cfg s op))
    apply ih
    cases op with
    | enqueue now id text lang priority translate =>
      exact queueTranslation_rateInv cfg translate now id text lang priority s h
    | tick now translate => exact processQueue_rateInv cfg translate now s h

/-- Claim C1 (amended): over every sequence of enqueue and tick
operations from the initial state, at every instant the trailing-window
request count is at most rpm; the trailing-window token sum can exceed
tpm (see the counterexample theorem) but never exceeds tpm plus the
tpm/4 batch budget, i.e. four times the window token sum is at most five
times tpm. -/
theorem rate_window_amended (cfg : RateLimitConfig) (ops : List SchedulerOp)
    (t : Int) :
    requestsInWindow t (runOps cfg ops initialState) ≤ cfg.rpm ∧
    4 * tokensInWindow t (runOps cfg ops initialState) ≤ 5 * cfg.tpm := by
  have h := runOps_rateInv cfg ops initialState (rateInv_initial cfg)
  constructor
  · exact le_trans (pruneTimes_length_le t _) h.1
  · exact le_trans (Nat.mul_le_mul_left 4 (pruneUsage_sum_le t _)) h.2

/-- Claim C1 counterexample: a concrete trace from the initial state
after which the trailing-window token sum is 101 while tpm is 100: the
token half of the stated rate ceiling is violated (the request-count
half is the part that holds). -/
theorem rate_window_token_breach :
    cfgCex.tpm < tokensInWindow 60001 (runOps cfgCex cexTrace initialState) := by
  decide

/-- Claim C10: the code's isSlashCommand coincides with the simple
predicate "trimmed text starts with one slash and not two"; the bare-URL
exclusion branch never changes the result, because every alternative of
the anchored URL pattern other than the already-excluded double slash
starts with a letter, not a slash. -/
theorem isSlashCommand_eq_spec :
    ∀ text, isSlashCommand text = isSlashCommandSpec text := by
  intro text
  unfold isSlashCommand isSlashCommandSpec
  cases h : jsTrim text with
  | nil => simp [List.isPrefixOf]
  | cons c rest =>
    by_cases h1 : c = 47
    · subst h1
      cases rest with
      | nil => simp [List.isPrefixOf, urlAnchorTest]
      | cons c2 rest2 =>
        by_cases h2 : c2 = 47
        · subst h2
          simp [List.isPrefixOf, urlAnchorTest]
        · simp [List.isPrefixOf, urlAnchorTest, h2]
    · have h1b : ¬ (47 = c) := fun hh => h1 hh.symm
      simp [List.isPrefixOf, h1b]

-- Dedup lemmas for processBatch (claim C3).

theorem groupTranslate_shape (translate : TranslateOracle) (now : Int)
    (firstItem : QueueItem) (dups : List QueueItem) (s : MiddlewareState)
    (hf : firstItem ∈ dups) :
    (∃ o, (groupTranslate translate now firstItem dups s).2.1
        = dups.map (fun it => (it, o))) ∧
    ((groupTranslate translate now firstItem dups s).2.2 = [] ∨
      ∃ f, f ∈ dups ∧
        (groupTranslate translate now firstItem dups s).2.2 = [keyOf f]) := by
  unfold groupTranslate
  dsimp only
  cases translate firstItem.text firstItem.targetLanguage with
  | error e => exact ⟨⟨Outcome.rejected e, rfl⟩, Or.inr ⟨firstItem, hf, rfl⟩⟩
  | ok r =>
    by_cases h : r = []
    · simp only [if_pos h]
      exact ⟨⟨Outcome.rejected translationFailedMsg, rfl⟩,
        Or.inr ⟨firstItem, hf, rfl⟩⟩
    · simp only [if_neg h]
      exact ⟨⟨Outcome.resolved r, rfl⟩, Or.inr ⟨firstItem, hf, rfl⟩⟩

theorem processGroup_shape (translate : TranslateOracle) (now : Int)
    (dups : List QueueItem) (s : MiddlewareState) :
    (∃ o, (processGroup translate now dups s).2.1
        = dups.map (fun it => (it, o))) ∧
    ((processGroup translate now dups s).2.2 = [] ∨
      ∃ f, f ∈ dups ∧
        (processGroup translate now dups s).2.2 = [keyOf f]) := by
  cases dups with
  | nil => exact ⟨⟨Outcome.rejected [], rfl⟩, Or.inl rfl⟩
  | cons firstItem tail =>
    unfold processGroup
    dsimp only
    rcases hg : getFromCache now firstItem.text firstItem.targetLanguage s
      with ⟨o, s1⟩
    cases o with
    | some cached =>
      by_cases h : cached = []
      · simp only [if_pos h]
        exact groupTranslate_shape translate now firstItem (firstItem :: tail)
          s1 (List.mem_cons_self _ _)
      · simp only [if_neg h]
        exact ⟨⟨Outcome.resolved cached, rfl⟩, Or.inl (by simp)⟩
    | none =>
      exact groupTranslate_shape translate now firstItem (firstItem :: tail)
        s1 (List.mem_cons_self _ _)

theorem addToGroup_keys (key : JSString) (item : QueueItem) :
    ∀ acc : List (JSString × List QueueItem),
      (addToGroup key item acc).map Prod.fst
        = if key ∈ acc.map Prod.fst then acc.map Prod.fst
          else acc.map Prod.fst ++ [key] := by
  intro acc
  induction acc with
  | nil => simp [addToGroup]
  | cons hd tl ih =>
    obtain ⟨k2, grp⟩ := hd
    by_cases h : k2 = key
    · subst h
      simp [addToGroup]
    · have hne : ¬ key = k2 := fun hh => h hh.symm
      simp only [addToGroup, if_neg h, List.map_cons, ih, List.mem_cons, hne,
        false_or]
      by_cases h2 : key ∈ tl.map Prod.fst
      · simp [h2]
      · simp [h2]

theorem addToGroup_keys_nodup (key : JSString) (item : QueueItem)
    (acc : List (JSString × List QueueItem))
    (h : (acc.map Prod.fst).Nodup) :
    ((addToGroup key item acc).map Prod.fst).Nodup := by
  rw [addToGroup_keys]
  by_cases h2 : key ∈ acc.map Prod.fst
  · simpa [h2] using h
  · simp only [if_neg h2]
    refine List.Nodup.append h (List.nodup_singleton key) ?_
    intro a ha hb
    simp only [List.mem_singleton] at hb
    subst hb
    exact h2 ha

theorem addToGroup_items_key (key : JSString) (item : QueueItem)
    (hitem : keyOf item = key) :
    ∀ acc : List (JSString × List QueueItem),
      (∀ g ∈ acc, ∀ it ∈ g.2, keyOf it = g.1) →
      (∀ g ∈ addToGroup key item acc, ∀ it ∈ g.2, keyOf it = g.1) := by
  intro acc
  induction acc with
  | nil =>
    intro _ g hg it hit
    simp only [addToGroup, List.mem_singleton] at hg
    subst hg
    simp only [List.mem_singleton] at hit
    subst hit
    exact hitem
  | cons hd tl ih =>
    obtain ⟨k2, grp⟩ := hd
    intro hacc g hg it hit
    by_cases h : k2 = key
    · subst h
      simp only [addToGroup, if_pos rfl] at hg
      rcases List.mem_cons.mp hg with hg | hg
      · subst hg
        rcases List.mem_append.mp hit with hit2 | hit2
        · exact hacc (k2, grp) (List.mem_cons_self _ _) it hit2
        · simp only [List.mem_singleton] at hit2
          subst hit2
          exact hitem
      · exact hacc g (List.mem_cons_of_mem _ hg) it hit
    · simp only [addToGroup, if_neg h] at hg
      rcases List.mem_cons.mp hg with hg | hg
      · subst hg
        exact hacc (k2, grp) (List.mem_cons_self _ _) it hit
      · exact ih (fun g2 hg2 => hacc g2 (List.mem_cons_of_mem _ hg2)) g hg it hit

theorem groupByKey_wf :
    ∀ (items : List QueueItem) (acc : List (JSString × List QueueItem)),
      (acc.map Prod.fst).Nodup →
      (∀ g ∈ acc, ∀ it ∈ g.2, keyOf it = g.1) →
      ((groupByKey items acc).map Prod.fst).Nodup ∧
      (∀ g ∈ groupByKey items acc, ∀ it ∈ g.2, keyOf it = g.1) := by
  intro items
  induction items with
  | nil => intro acc h1 h2; exact ⟨h1, h2⟩
  | cons item rest ih =>
    intro acc h1 h2
    exact ih (addToGroup (keyOf item) item acc)
      (addToGroup_keys_nodup _ _ _ h1)
      (addToGroup_items_key _ _ rfl _ h2)

theorem processGroups_dedup (translate : TranslateOracle) (now : Int) :
    ∀ (groups : List (JSString × List QueueItem)) (s : MiddlewareState),
      (groups.map Prod.fst).Nodup →
      (∀ g ∈ groups, ∀ it ∈ g.2, keyOf it = g.1) →
      (∀ fp, ((processGroups translate now groups s).2.2).count fp ≤ 1) ∧
      (∀ fp, fp ∈ (processGroups translate now groups s).2.2 →
        fp ∈ groups.map Prod.fst) ∧
      (∀ p, p ∈ (processGroups translate now groups s).2.1 →
        keyOf p.1 ∈ groups.map Prod.fst) ∧
      (∀ p q, p ∈ (processGroups translate now groups s).2.1 →
        q ∈ (processGroups translate now groups s).2.1 →
        keyOf p.1 = keyOf q.1 → p.2 = q.2) := by
  intro groups
  induction groups with
  | nil =>
    intro s _ _
    refine ⟨?_, ?_, ?_, ?_⟩ <;> simp [processGroups]
  | cons g rest ih =>
    intro s h1 h2
    obtain ⟨k, dups⟩ := g
    simp only [List.map_cons, List.nodup_cons] at h1
    have hkd : ∀ it ∈ dups, keyOf it = k := by
      intro it hit
      exact h2 (k, dups) (List.mem_cons_self _ _) it hit
    have h2r : ∀ g2 ∈ rest, ∀ it ∈ g2.2, keyOf it = g2.1 :=
      fun g2 hg2 => h2 g2 (List.mem_cons_of_mem _ hg2)
    obtain ⟨⟨o, hsets⟩, hcalls⟩ :=
      processGroup_shape translate now dups s
    have hcalls2 : (processGroup translate now dups s).2.2 = [] ∨
        (processGroup translate now dups s).2.2 = [k] := by
      rcases hcalls with hc | ⟨f, hf, hc⟩
      · exact Or.inl hc
      · rw [hkd f hf] at hc
        exact Or.inr hc
    obtain ⟨ih1, ih2, ih3, ih4⟩ :=
      ih (processGroup translate now dups s).1 h1.2 h2r
    have hsetEq : (processGroups translate now ((k, dups) :: rest) s).2.1
        = (processGroup translate now dups s).2.1 ++
          (processGroups translate now rest
            (processGroup translate now dups s).1).2.1 := rfl
    have hcallEq : (processGroups translate now ((k, dups) :: rest) s).2.2
        = (processGroup translate now dups s).2.2 ++
          (processGroups translate now rest
            (processGroup translate now dups s).1).2.2 := rfl
    refine ⟨?_, ?_, ?_, ?_⟩
    · intro fp
      rw [hcallEq, List.count_append]
      rcases hcalls2 with hc | hc
      · rw [hc]
        simpa using ih1 fp
      · rw [hc]
        by_cases hfk : fp = k
        · subst hfk
          have hz : ((processGroups translate now rest
              (processGroup translate now dups s).1).2.2).count fp = 0 := by
            rw [List.count_eq_zero]
            intro hmem
            exact h1.1 (ih2 fp hmem)
          rw [hz]
          simp
        · have : ([k].count fp) = 0 := by
            rw [List.count_eq_zero]
            simp only [List.mem_singleton]
            exact fun hh => hfk hh
          rw [this]
          simpa using ih1 fp
    · intro fp hmem
      rw [hcallEq] at hmem
      rcases List.mem_append.mp hmem with hm | hm
      · rcases hcalls2 with hc | hc
        · rw [hc] at hm
          exact absurd hm (List.not_mem_nil fp)
        · rw [hc] at hm
          simp only [List.mem_singleton] at hm
          subst hm
          exact List.mem_cons_self _ _
      · exact List.mem_cons_of_mem _ (ih2 fp hm)
    · intro p hp
      rw [hsetEq] at hp
      rcases List.mem_append.mp hp with hm | hm
      · rw [hsets] at hm
        obtain ⟨it, hit, hpe⟩ := List.mem_map.mp hm
        rw [← hpe]
        simp only [List.map_cons]
        rw [hkd it hit]
        exact List.mem_cons_self _ _
      · exact List.mem_cons_of_mem _ (ih3 p hm)
    · intro p q hp hq hkey
      rw [hsetEq] at hp hq
      rcases List.mem_append.mp hp with hmp | hmp <;>
        rcases List.mem_append.mp hq with hmq | hmq
      · rw [hsets] at hmp hmq
        obtain ⟨it1, _, hpe⟩ := List.mem_map.mp hmp
        obtain ⟨it2, _, hqe⟩ := List.mem_map.mp hmq
        rw [← hpe, ← hqe]
      · exfalso
        rw [hsets] at hmp
        obtain ⟨it1, hit1, hpe⟩ := List.mem_map.mp hmp
        have hk1 : keyOf p.1 = k := by
          rw [← hpe]
          exact hkd it1 hit1
        have hk2 : keyOf q.1 ∈ rest.map Prod.fst := ih3 q hmq
        rw [← hkey, hk1] at hk2
        exact h1.1 hk2
      · exfalso
        rw [hsets] at hmq
        obtain ⟨it2, hit2, hqe⟩ := List.mem_map.mp hmq
        have hk1 : keyOf q.1 = k := by
          rw [← hqe]
          exact hkd it2 hit2
        have hk2 : keyOf p.1 ∈ rest.map Prod.fst := ih3 p hmp
        rw [hkey, hk1] at hk2
        exact h1.1 hk2
      · exact ih4 p q hmp hmq hkey

/-- Claim C3: for every dispatched batch and every fingerprint, at most
one outbound translate call is made for that fingerprint, and all items
of the batch sharing a fingerprint are settled with the same outcome
(all resolved with the identical result or all rejected with the same
error). -/
theorem batch_dedup (translate : TranslateOracle) (now : Int)
    (items : List QueueItem) (s : MiddlewareState) :
    (∀ fp, ((processBatch translate now items s).2.2).count fp ≤ 1) ∧
    (∀ p q, p ∈ (processBatch translate now items s).2.1 →
      q ∈ (processBatch translate now items s).2.1 →
      keyOf p.1 = keyOf q.1 → p.2 = q.2) := by
  unfold processBatch
  by_cases hne : items = []
  · rw [if_pos hne]
    constructor
    · intro fp
      simp
    · intro p q hp _ _
      exact absurd hp (List.not_mem_nil p)
  · rw [if_neg hne]
    dsimp only
    have hwf := groupByKey_wf items [] (by simp) (by simp)
    have hd := processGroups_dedup translate now (groupByKey items [])
      (recordRequest now (totalTokens items) s) hwf.1 hwf.2
    exact ⟨fun fp => hd.1 fp, fun p q hp hq => hd.2.2.2 p q hp hq⟩

/-- Witness for C3: two concrete queued items sharing the fingerprint
"en:a" produce at most one outbound call for it, and their settlements
agree. -/
theorem batch_dedup_witness :
    ((processBatch okOracle 0 c3Items initialState).2.2).count
      (getCacheKey [97] [101, 110]) ≤ 1 ∧
    (Outcome.resolved [120] : Outcome) = Outcome.resolved [120] := by
  have h := batch_dedup okOracle 0 c3Items initialState
  refine ⟨h.1 (getCacheKey [97] [101, 110]), ?_⟩
  exact h.2 (⟨1, [97], [101, 110], 1, 1, 0⟩, Outcome.resolved [120])
    (⟨2, [97], [101, 110], 1, 1, 0⟩, Outcome.resolved [120])
    (by decide) (by decide) (by decide)

-- Character-class lemmas for the classifier.

theorem space_not_main (c : Nat) (h : jsSpaceChar c = true) :
    isChineseMain c = false := by
  apply Bool.eq_false_iff.mpr
  intro hm
  simp only [isChineseMain, Bool.and_eq_true, decide_eq_true_eq] at hm
  simp only [jsSpaceChar, Bool.or_eq_true, Bool.and_eq_true, beq_iff_eq,
    decide_eq_true_eq] at h
  omega

theorem main_imp_wide (c : Nat) (h : isChineseMain c = true) :
    isChineseWide c = true := by
  simp only [isChineseMain, Bool.and_eq_true, decide_eq_true_eq] at h
  simp only [isChineseWide, Bool.or_eq_true, Bool.and_eq_true,
    decide_eq_true_eq]
  omega

theorem main_imp_narrow (c : Nat) (h : isChineseMain c = true) :
    isChineseNarrow c = true := by
  simp only [isChineseMain, Bool.and_eq_true, decide_eq_true_eq] at h
  simp only [isChineseNarrow, Bool.or_eq_true, Bool.and_eq_true,
    decide_eq_true_eq]
  omega

theorem ascii_not_main (c : Nat) (h : c ≤ 0x7A) : isChineseMain c = false := by
  apply Bool.eq_false_iff.mpr
  intro hm
  simp only [isChineseMain, Bool.and_eq_true, decide_eq_true_eq] at hm
  omega

theorem letter_not_main (c : Nat) (h : isAsciiLetter c = true) :
    isChineseMain c = false := by
  simp only [isAsciiLetter, Bool.or_eq_true, Bool.and_eq_true,
    decide_eq_true_eq] at h
  exact ascii_not_main c (by omega)

theorem localChar_not_main (c : Nat) (h : isLocalChar c = true) :
    isChineseMain c = false := by
  simp only [isLocalChar, isAsciiLetter, isAsciiDigit, Bool.or_eq_true,
    Bool.and_eq_true, beq_iff_eq, decide_eq_true_eq] at h
  exact ascii_not_main c (by omega)

theorem domainChar_not_main (c : Nat) (h : isDomainChar c = true) :
    isChineseMain c = false := by
  simp only [isDomainChar, isAsciiLetter, isAsciiDigit, Bool.or_eq_true,
    Bool.and_eq_true, beq_iff_eq, decide_eq_true_eq] at h
  exact ascii_not_main c (by omega)

theorem urlBodyChar_not_main (c : Nat) (h : urlBodyChar c = true) :
    isChineseMain c = false := by
  simp only [urlBodyChar, Bool.and_eq_true, Bool.not_eq_true'] at h
  exact h.2

theorem toLower_ascii_not_main (c : Nat) (h : jsToLowerChar c ≤ 0x7A) :
    isChineseMain c = false := by
  unfold jsToLowerChar at h
  by_cases hc : 0x41 ≤ c ∧ c ≤ 0x5A
  · exact ascii_not_main c (by omega)
  · rw [if_neg hc] at h
    exact ascii_not_main c h

-- Helper list lemmas.

theorem takeWhile_take_eq (p : Nat → Bool) :
    ∀ s : JSString, s.take (s.takeWhile p).length = s.takeWhile p := by
  intro s
  induction s with
  | nil => rfl
  | cons c rest ih =>
    by_cases h : p c
    · rw [List.takeWhile_cons_of_pos h]
      simp only [List.length_cons, List.take_succ_cons]
      rw [ih]
    · rw [List.takeWhile_cons_of_neg (by simpa using h)]
      rfl

theorem take_append_len (l₁ l₂ : JSString) (i : Nat) :
    (l₁ ++ l₂).take (l₁.length + i) = l₁ ++ l₂.take i := by
  induction l₁ with
  | nil => simp
  | cons c rest ih =>
    simp only [List.cons_append, List.length_cons]
    rw [Nat.succ_add, List.take_succ_cons, ih]

-- Preservation of main-CJK characters by the replace scanners.

theorem replaceScanAux_filter_main (m : Matcher)
    (hm : ∀ s n, m s = some n →
      ∀ c ∈ s.take (n + 1), isChineseMain c = false) :
    ∀ (fuel : Nat) (s : JSString), s.length ≤ fuel →
      (replaceScanAux m fuel s).filter isChineseMain
        = s.filter isChineseMain := by
  intro fuel
  induction fuel with
  | zero =>
    intro s hs
    have hnil : s = [] := List.eq_nil_of_length_eq_zero (Nat.le_zero.mp hs)
    subst hnil
    rfl
  | succ fuel ih =>
    intro s hs
    match s with
    | [] => rfl
    | c :: rest =>
      show (match m (c :: rest) with
        | some n => 0x20 :: replaceScanAux m fuel (rest.drop n)
        | none => c :: replaceScanAux m fuel rest).filter isChineseMain
        = (c :: rest).filter isChineseMain
      simp only [List.length_cons] at hs
      cases hmc : m (c :: rest) with
      | none =>
        dsimp only
        simp only [List.filter_cons]
        rw [ih rest (by omega)]
      | some n =>
        dsimp only
        have h20 : isChineseMain 0x20 = false := by decide
        have hL : (0x20 :: replaceScanAux m fuel (rest.drop n)).filter
            isChineseMain
            = (replaceScanAux m fuel (rest.drop n)).filter isChineseMain := by
          simp [h20]
        rw [hL, ih (rest.drop n) (by simp only [List.length_drop]; omega)]
        have hnone := hm (c :: rest) n hmc
        conv_rhs => rw [← List.take_append_drop (n + 1) (c :: rest)]
        rw [List.filter_append]
        have hz : ((c :: rest).take (n + 1)).filter isChineseMain = [] := by
          rw [List.filter_eq_nil]
          intro a ha
          simp [hnone a ha]
        rw [hz, List.nil_append, List.drop_succ_cons]

theorem replaceScanMAux_filter_main (m : Matcher)
    (hm : ∀ s n, m s = some n →
      ∀ c ∈ s.take (n + 1), isChineseMain c = false) :
    ∀ (fuel : Nat) (prev : Option Nat) (s : JSString), s.length ≤ fuel →
      (replaceScanMAux m fuel prev s).filter isChineseMain
        = s.filter isChineseMain := by
  intro fuel
  induction fuel with
  | zero =>
    intro prev s hs
    have hnil : s = [] := List.eq_nil_of_length_eq_zero (Nat.le_zero.mp hs)
    subst hnil
    rfl
  | succ fuel ih =>
    intro prev s hs
    match s with
    | [] => rfl
    | c :: rest =>
      show (if lineStart prev then
        match m (c :: rest) with
        | some n =>
          0x20 :: replaceScanMAux m fuel ((c :: rest).get? n) (rest.drop n)
        | none => c :: replaceScanMAux m fuel (some c) rest
        else c :: replaceScanMAux m fuel (some c) rest).filter isChineseMain
        = (c :: rest).filter isChineseMain
      simp only [List.length_cons] at hs
      by_cases hls : lineStart prev
      · rw [if_pos hls]
        cases hmc : m (c :: rest) with
        | none =>
          dsimp only
          simp only [List.filter_cons]
          rw [ih (some c) rest (by omega)]
        | some n =>
          dsimp only
          have h20 : isChineseMain 0x20 = false := by decide
          have hL : (0x20 :: replaceScanMAux m fuel ((c :: rest).get? n)
              (rest.drop n)).filter isChineseMain
              = (replaceScanMAux m fuel ((c :: rest).get? n)
                  (rest.drop n)).filter isChineseMain := by
            simp [h20]
          rw [hL, ih ((c :: rest).get? n) (rest.drop n)
            (by simp only [List.length_drop]; omega)]
          have hnone := hm (c :: rest) n hmc
          conv_rhs => rw [← List.take_append_drop (n + 1) (c :: rest)]
          rw [List.filter_append]
          have hz : ((c :: rest).take (n + 1)).filter isChineseMain = [] := by
            rw [List.filter_eq_nil]
            intro a ha
            simp [hnone a ha]
          rw [hz, List.nil_append, List.drop_succ_cons]
      · rw [if_neg hls]
        simp only [List.filter_cons]
        rw [ih (some c) rest (by omega)]

theorem filter_main_dropWhile_space (s : JSString) :
    (s.dropWhile jsSpaceChar).filter isChineseMain
      = s.filter isChineseMain := by
  induction s with
  | nil => rfl
  | cons c rest ih =>
    by_cases h : jsSpaceChar c
    · simp only [List.dropWhile_cons, h, if_true, List.filter_cons,
        space_not_main c h]
      exact ih
    · simp only [List.dropWhile_cons]
      simp [h]

theorem countMain_jsTrim (s : JSString) :
    ((jsTrim s).filter isChineseMain).length
      = (s.filter isChineseMain).length := by
  unfold jsTrim
  rw [List.filter_reverse, List.length_reverse, filter_main_dropWhile_space,
    List.filter_reverse, List.length_reverse, filter_main_dropWhile_space]

-- Per-matcher lemmas: a match never covers a main-CJK character.

theorem spaceRunMatcher_no_main (s : JSString) (n : Nat)
    (h : spaceRunMatcher s = some n) :
    ∀ c ∈ s.take (n + 1), isChineseMain c = false := by
  unfold spaceRunMatcher at h
  dsimp only at h
  by_cases hz : (s.takeWhile jsSpaceChar).length = 0
  · rw [if_pos hz] at h
    exact Option.noConfusion h
  · rw [if_neg hz] at h
    have hn := Option.some.inj h
    intro c hc
    have hn1 : n + 1 = (s.takeWhile jsSpaceChar).length := by omega
    rw [hn1, takeWhile_take_eq] at hc
    exact space_not_main c (List.mem_takeWhile_imp hc)

theorem urlTail_spec (pre : Nat) (rest2 : JSString) (n : Nat)
    (h : urlTail pre rest2 = some n) :
    n + 1 = pre + (rest2.takeWhile urlBodyChar).length ∧
    1 ≤ (rest2.takeWhile urlBodyChar).length := by
  unfold urlTail at h
  dsimp only at h
  by_cases hz : (rest2.takeWhile urlBodyChar).length = 0
  · rw [if_pos hz] at h
    exact Option.noConfusion h
  · rw [if_neg hz] at h
    have := Option.some.inj h
    omega

theorem urlMatcher_no_main (s : JSString) (n : Nat)
    (h : urlMatcher s = some n) :
    ∀ c ∈ s.take (n + 1), isChineseMain c = false := by
  unfold urlMatcher at h
  split at h
  · next rest2 =>
    obtain ⟨hn, hpos⟩ := urlTail_spec 8 rest2 n h
    intro c hc
    have hdecomp :
        (104 :: 116 :: 116 :: 112 :: 115 :: 58 :: 47 :: 47 :: rest2 :
          JSString)
        = [104, 116, 116, 112, 115, 58, 47, 47] ++ rest2 := rfl
    rw [hdecomp, hn] at hc
    rw [show (8 : Nat) + (rest2.takeWhile urlBodyChar).length
      = ([104, 116, 116, 112, 115, 58, 47, 47] : JSString).length
        + (rest2.takeWhile urlBodyChar).length from rfl] at hc
    rw [take_append_len] at hc
    rcases List.mem_append.mp hc with hc2 | hc2
    · fin_cases hc2 <;> decide
    · rw [takeWhile_take_eq] at hc2
      exact urlBodyChar_not_main c (List.mem_takeWhile_imp hc2)
  · next rest2 =>
    obtain ⟨hn, hpos⟩ := urlTail_spec 7 rest2 n h
    intro c hc
    have hdecomp :
        (104 :: 116 :: 116 :: 112 :: 58 :: 47 :: 47 :: rest2 : JSString)
        = [104, 116, 116, 112, 58, 47, 47] ++ rest2 := rfl
    rw [hdecomp, hn] at hc
    rw [show (7 : Nat) + (rest2.takeWhile urlBodyChar).length
      = ([104, 116, 116, 112, 58, 47, 47] : JSString).length
        + (rest2.takeWhile urlBodyChar).length from rfl] at hc
    rw [take_append_len] at hc
    rcases List.mem_append.mp hc with hc2 | hc2
    · fin_cases hc2 <;> decide
    · rw [takeWhile_take_eq] at hc2
      exact urlBodyChar_not_main c (List.mem_takeWhile_imp hc2)
  · exact Option.noConfusion h

theorem pathMatcher_no_main (s : JSString) (n : Nat)
    (h : pathMatcher s = some n) :
    ∀ c ∈ s.take (n + 1), isChineseMain c = false := by
  unfold pathMatcher at h
  split at h
  · next c1 c3 rest =>
    by_cases hcond : isAsciiLetter c1 && (c3 == 92 || c3 == 47)
        && rest.all (fun c => ! isChineseMain c)
    · rw [if_pos hcond] at h
      dsimp only at h
      by_cases hz : (rest.takeWhile (fun c => ! jsSpaceChar c)).length = 0
      · rw [if_pos hz] at h
        exact Option.noConfusion h
      · rw [if_neg hz] at h
        have hn := Option.some.inj h
        simp only [Bool.and_eq_true, Bool.or_eq_true, beq_iff_eq] at hcond
        intro c hc
        have hdecomp : (c1 :: 58 :: c3 :: rest : JSString)
            = [c1, 58, c3] ++ rest := rfl
        have hn1 : n + 1 = ([c1, 58, c3] : JSString).length
            + (rest.takeWhile (fun c => ! jsSpaceChar c)).length := by
          simp only [List.length_cons, List.length_nil]
          omega
        rw [hdecomp, hn1, take_append_len] at hc
        rcases List.mem_append.mp hc with hc2 | hc2
        · have hmem : c = c1 ∨ c = 58 ∨ c = c3 := by simpa using hc2
          rcases hmem with rfl | rfl | rfl
          · exact letter_not_main c hcond.1.1
          · decide
          · rcases hcond.1.2 with rfl | rfl <;> decide
        · have hcr : c ∈ rest := List.mem_of_mem_take hc2
          have hall := List.all_eq_true.mp hcond.2 c hcr
          simpa using hall
    · rw [if_neg hcond] at h
      exact Option.noConfusion h
  · exact Option.noConfusion h

theorem fenceMatcher_no_main (s : JSString) (n : Nat)
    (h : fenceMatcher s = some n) :
    ∀ c ∈ s.take (n + 1), isChineseMain c = false := by
  unfold fenceMatcher at h
  split at h
  · next rest =>
    by_cases hall : rest.all (fun c => ! isChineseMain c)
    · rw [if_pos hall] at h
      cases hf : findTripleBacktick rest with
      | none =>
        rw [hf] at h
        exact Option.noConfusion h
      | some j =>
        rw [hf] at h
        have hn := Option.some.inj h
        intro c hc
        have hdecomp : (96 :: 96 :: 96 :: rest : JSString)
            = [96, 96, 96] ++ rest := rfl
        have hn1 : n + 1 = ([96, 96, 96] : JSString).length + (j + 3) := by
          simp only [List.length_cons, List.length_nil]
          omega
        rw [hdecomp, hn1, take_append_len] at hc
        rcases List.mem_append.mp hc with hc2 | hc2
        · fin_cases hc2 <;> decide
        · have hcr : c ∈ rest := List.mem_of_mem_take hc2
          have hallc := List.all_eq_true.mp hall c hcr
          simpa using hallc
    · rw [if_neg hall] at h
      exact Option.noConfusion h
  · exact Option.noConfusion h

theorem inlineCodeMatcher_no_main (s : JSString) (n : Nat)
    (h : inlineCodeMatcher s = some n) :
    ∀ c ∈ s.take (n + 1), isChineseMain c = false := by
  unfold inlineCodeMatcher at h
  split at h
  · next rest =>
    dsimp only at h
    by_cases hall : (rest.takeWhile (fun c => ! (c == 96))).all
        (fun c => ! isChineseMain c)
    · rw [if_pos hall] at h
      split at h
      · next htl =>
        by_cases hz : (rest.takeWhile (fun c => ! (c == 96))).length = 0
        · rw [if_pos hz] at h
          exact Option.noConfusion h
        · rw [if_neg hz] at h
          have hn := Option.some.inj h
          intro c hc
          have hdecomp : (96 :: rest : JSString) = [96] ++ rest := rfl
          have hn1 : n + 1 = ([96] : JSString).length
              + ((rest.takeWhile (fun c => ! (c == 96))).length + 1) := by
            simp only [List.length_cons, List.length_nil]
            omega
          rw [hdecomp, hn1, take_append_len] at hc
          rcases List.mem_append.mp hc with hc2 | hc2
          · fin_cases hc2 <;> decide
          · rw [List.take_succ] at hc2
            rcases List.mem_append.mp hc2 with hc3 | hc3
            · rw [takeWhile_take_eq] at hc3
              have hallc := List.all_eq_true.mp hall c hc3
              simpa using hallc
            · have hget : rest[(rest.takeWhile
                  (fun c => ! (c == 96))).length]? = some 96 := by
                have hg := List.getElem?_drop rest
                  (rest.takeWhile (fun c => ! (c == 96))).length 0
                rw [htl] at hg
                simpa using hg.symm
              rw [hget] at hc3
              simp only [Option.toList_some, List.mem_singleton] at hc3
              subst hc3
              decide
      · exact Option.noConfusion h
    · rw [if_neg hall] at h
      exact Option.noConfusion h
  · exact Option.noConfusion h

theorem emailSplitFrom_le (D : JSString) :
    ∀ (j dlen : Nat), emailSplitFrom D j = some dlen → dlen ≤ D.length := by
  intro j
  induction j with
  | zero => intro dlen h; exact Option.noConfusion h
  | succ j ih =>
    intro dlen h
    unfold emailSplitFrom at h
    by_cases hcond : D.get? (j + 1) = some 46 ∧
        2 ≤ ((D.drop (j + 2)).takeWhile isAsciiLetter).length
    · rw [if_pos hcond] at h
      have hn := Option.some.inj h
      have hlt : j + 1 < D.length := by
        by_contra hge
        rw [List.get?_eq_none.mpr (by omega)] at hcond
        exact Option.noConfusion hcond.1
      have hrun : ((D.drop (j + 2)).takeWhile isAsciiLetter).length
          ≤ (D.drop (j + 2)).length := by
        conv_lhs => rw [← takeWhile_take_eq isAsciiLetter (D.drop (j + 2))]
        rw [List.length_take]
        omega
      rw [List.length_drop] at hrun
      omega
    · rw [if_neg hcond] at h
      exact ih dlen h

theorem emailMatcher_no_main (s : JSString) (n : Nat)
    (h : emailMatcher s = some n) :
    ∀ c ∈ s.take (n + 1), isChineseMain c = false := by
  unfold emailMatcher at h
  dsimp only at h
  by_cases hz : (s.takeWhile isLocalChar).length = 0
  · rw [if_pos hz] at h
    exact Option.noConfusion h
  · rw [if_neg hz] at h
    split at h
    · next rest2 heq =>
      cases hsp : emailSplitFrom (rest2.takeWhile isDomainChar)
          ((rest2.takeWhile isDomainChar).length - 1) with
      | none =>
        rw [hsp] at h
        exact Option.noConfusion h
      | some dlen =>
        rw [hsp] at h
        have hn := Option.some.inj h
        have hdle := emailSplitFrom_le (rest2.takeWhile isDomainChar) _ _ hsp
        intro c hc
        have hsdec : s = s.takeWhile isLocalChar ++ (64 :: rest2) := by
          conv_lhs =>
            rw [← List.take_append_drop (s.takeWhile isLocalChar).length s]
          rw [takeWhile_take_eq, heq]
        have hn1 : n + 1 = (s.takeWhile isLocalChar).length + (1 + dlen) := by
          omega
        rw [hsdec] at hc
        rw [hn1, take_append_len] at hc
        rcases List.mem_append.mp hc with hc2 | hc2
        · exact localChar_not_main c (List.mem_takeWhile_imp hc2)
        · rw [Nat.add_comm 1 dlen, List.take_succ_cons] at hc2
          rcases List.mem_cons.mp hc2 with rfl | hc3
          · decide
          · have htk : (rest2.takeWhile isDomainChar).take dlen
                = rest2.take dlen := by
              conv_lhs => rw [← takeWhile_take_eq isDomainChar rest2]
              rw [List.take_take]
              congr 1
              omega
            rw [← htk] at hc3
            have hcd : c ∈ rest2.takeWhile isDomainChar :=
              List.mem_of_mem_take hc3
            exact domainChar_not_main c (List.mem_takeWhile_imp hcd)
    · exact Option.noConfusion h

theorem matchWordCI_spec :
    ∀ (w r r2 : JSString), matchWordCI w r = some r2 →
      r2 = r.drop w.length ∧
      ∀ c ∈ r.take w.length, ∃ x ∈ w, jsToLowerChar c = x := by
  intro w
  induction w with
  | nil =>
    intro r r2 h
    have hr : r2 = r := (Option.some.inj h).symm
    subst hr
    exact ⟨by simp, by simp⟩
  | cons wc ws ih =>
    intro r r2 h
    match r with
    | [] => exact Option.noConfusion h
    | c :: cs =>
      unfold matchWordCI at h
      by_cases hb : jsToLowerChar c == wc
      · rw [if_pos hb] at h
        obtain ⟨h1, h2⟩ := ih cs r2 h
        constructor
        · simpa using h1
        · intro x hx
          rw [List.length_cons, List.take_succ_cons] at hx
          rcases List.mem_cons.mp hx with rfl | hx2
          · exact ⟨wc, List.mem_cons_self _ _, by simpa using hb⟩
          · obtain ⟨y, hy, hxy⟩ := h2 x hx2
            exact ⟨y, List.mem_cons_of_mem _ hy, hxy⟩
      · rw [if_neg hb] at h
        exact Option.noConfusion h

theorem errorWordTail_spec (w : JSString) (sp : Nat) (rest : JSString)
    (n : Nat) (h : errorWordTail w sp rest = some n) :
    ∃ rr : JSString, rest.drop w.length = 58 :: rr ∧
      matchWordCI w rest = some (58 :: rr) ∧
      n = sp + w.length + (rr.takeWhile jsSpaceChar).length := by
  unfold errorWordTail at h
  split at h
  · next r1 heq =>
    split at h
    · next rr =>
      dsimp only at h
      by_cases hcond : ((rr.drop (rr.takeWhile jsSpaceChar).length).all
          (fun c => ! isChineseMain c))
      · rw [if_pos hcond] at h
        have hn := Option.some.inj h
        have hdrop := (matchWordCI_spec w rest _ heq).1
        exact ⟨rr, hdrop.symm, heq, by omega⟩
      · rw [if_neg hcond] at h
        exact Option.noConfusion h
    · exact Option.noConfusion h
  · exact Option.noConfusion h

theorem errorWordTail_no_main (s w : JSString) (n : Nat)
    (hw : ∀ x ∈ w, 0x61 ≤ x ∧ x ≤ 0x7A)
    (h : errorWordTail w (s.takeWhile jsSpaceChar).length
      (s.drop (s.takeWhile jsSpaceChar).length) = some n) :
    ∀ c ∈ s.take (n + 1), isChineseMain c = false := by
  obtain ⟨rr, hdrop, hword, hn⟩ := errorWordTail_spec _ _ _ _ h
  intro c hc
  have hsdec : s = s.takeWhile jsSpaceChar
      ++ s.drop (s.takeWhile jsSpaceChar).length := by
    conv_lhs =>
      rw [← List.take_append_drop (s.takeWhile jsSpaceChar).length s]
    rw [takeWhile_take_eq]
  have hn1 : n + 1 = (s.takeWhile jsSpaceChar).length
      + (w.length + (1 + (rr.takeWhile jsSpaceChar).length)) := by omega
  rw [hsdec] at hc
  rw [hn1, take_append_len] at hc
  rcases List.mem_append.mp hc with hc1 | hc1
  · exact space_not_main c (List.mem_takeWhile_imp hc1)
  · have hwlen : w.length
        < (s.drop (s.takeWhile jsSpaceChar).length).length := by
      have hlen : (s.drop (s.takeWhile jsSpaceChar).length).length - w.length
          = (58 :: rr : JSString).length := by
        rw [← hdrop]
        simp only [List.length_drop]
      simp only [List.length_cons] at hlen
      omega
    have hrdec : s.drop (s.takeWhile jsSpaceChar).length
        = (s.drop (s.takeWhile jsSpaceChar).length).take w.length
          ++ (58 :: rr) := by
      conv_lhs =>
        rw [← List.take_append_drop w.length
          (s.drop (s.takeWhile jsSpaceChar).length)]
      rw [hdrop]
    have hwlen2 : ((s.drop (s.takeWhile jsSpaceChar).length).take
        w.length).length = w.length := by
      rw [List.length_take]
      omega
    rw [hrdec] at hc1
    rw [show w.length + (1 + (rr.takeWhile jsSpaceChar).length)
      = ((s.drop (s.takeWhile jsSpaceChar).length).take w.length).length
        + (1 + (rr.takeWhile jsSpaceChar).length) from by rw [hwlen2]] at hc1
    rw [take_append_len] at hc1
    rcases List.mem_append.mp hc1 with hc2 | hc2
    · obtain ⟨x, hxw, hlx⟩ :=
        (matchWordCI_spec w (s.drop (s.takeWhile jsSpaceChar).length) _
          hword).2 c hc2
      have hb := hw x hxw
      exact toLower_ascii_not_main c (by omega)
    · rw [Nat.add_comm 1 _, List.take_succ_cons] at hc2
      rcases List.mem_cons.mp hc2 with rfl | hc3
      · decide
      · rw [takeWhile_take_eq] at hc3
        exact space_not_main c (List.mem_takeWhile_imp hc3)

theorem errorPrefixMatcher_no_main (s : JSString) (n : Nat)
    (h : errorPrefixMatcher s = some n) :
    ∀ c ∈ s.take (n + 1), isChineseMain c = false := by
  unfold errorPrefixMatcher at h
  dsimp only at h
  split at h
  · next n1 heq1 =>
    exact Option.some.inj h ▸ errorWordTail_no_main s _ n1 (by decide) heq1
  · next heq1 =>
    split at h
    · next n2 heq2 =>
      exact Option.some.inj h ▸ errorWordTail_no_main s _ n2 (by decide) heq2
    · next heq2 =>
      split at h
      · next n3 heq3 =>
        exact Option.some.inj h ▸
          errorWordTail_no_main s _ n3 (by decide) heq3
      · next heq3 =>
        exact errorWordTail_no_main s _ n (by decide) h

theorem replaceScan_filter_main (m : Matcher)
    (hm : ∀ s n, m s = some n →
      ∀ c ∈ s.take (n + 1), isChineseMain c = false) (s : JSString) :
    (replaceScan m s).filter isChineseMain = s.filter isChineseMain :=
  replaceScanAux_filter_main m hm s.length s (le_refl _)

theorem replaceScanM_filter_main (m : Matcher)
    (hm : ∀ s n, m s = some n →
      ∀ c ∈ s.take (n + 1), isChineseMain c = false)
    (prev : Option Nat) (s : JSString) :
    (replaceScanM m prev s).filter isChineseMain = s.filter isChineseMain :=
  replaceScanMAux_filter_main m hm s.length prev s (le_refl _)

/-- Every stripping pass of detectChineseContent only removes matches
that provably contain no main-CJK character, so the preprocessing
pipeline preserves the main-CJK character count. -/
theorem countMain_preprocess (text : JSString) :
    ((preprocessText text).filter isChineseMain).length
      = (text.filter isChineseMain).length := by
  unfold preprocessText
  rw [countMain_jsTrim,
    replaceScan_filter_main _ spaceRunMatcher_no_main,
    replaceScan_filter_main _ emailMatcher_no_main,
    replaceScan_filter_main _ inlineCodeMatcher_no_main,
    replaceScan_filter_main _ fenceMatcher_no_main,
    replaceScanM_filter_main _ errorPrefixMatcher_no_main,
    replaceScan_filter_main _ pathMatcher_no_main,
    replaceScan_filter_main _ urlMatcher_no_main]

theorem length_filter_mono (p q : Nat → Bool)
    (hpq : ∀ a, p a = true → q a = true) :
    ∀ l : JSString, (l.filter p).length ≤ (l.filter q).length := by
  intro l
  induction l with
  | nil => simp
  | cons c rest ih =>
    by_cases hc : p c = true
    · rw [List.filter_cons, if_pos hc, List.filter_cons, if_pos (hpq c hc)]
      simpa using ih
    · rw [List.filter_cons, if_neg hc, List.filter_cons]
      by_cases hq : q c = true
      · rw [if_pos hq]
        simp only [List.length_cons]
        omega
      · rw [if_neg hq]
        exact ih

/-- Short text with at least one main-CJK character is classified
positive: the character survives all six strip passes, the collapse and
the trim, so the final count is at least one and the short-text rule
fires. -/
theorem detect_short_main (text : JSString) (hlen : text.length ≤ 20)
    (hex : ∃ c ∈ text, isChineseMain c = true) :
    detectChineseContent text = true := by
  obtain ⟨c0, hc0m, hc0⟩ := hex
  have hmainpos : 1 ≤ (text.filter isChineseMain).length := by
    have hmem : c0 ∈ text.filter isChineseMain :=
      List.mem_filter.mpr ⟨hc0m, hc0⟩
    exact List.length_pos.mpr (fun hnil => by
      rw [hnil] at hmem
      exact List.not_mem_nil c0 hmem)
  have htne : ¬ (text = [] ∨ jsTrim text = []) := by
    rintro (h1 | h2)
    · subst h1
      exact List.not_mem_nil c0 hc0m
    · have hct := countMain_jsTrim text
      rw [h2] at hct
      simp only [List.filter_nil, List.length_nil] at hct
      omega
  have hwidene : ¬ text.filter isChineseWide = [] := by
    intro hnil
    have hmem : c0 ∈ text.filter isChineseWide :=
      List.mem_filter.mpr ⟨hc0m, main_imp_wide c0 hc0⟩
    rw [hnil] at hmem
    exact List.not_mem_nil c0 hmem
  have hcnt : 1 ≤ ((preprocessText text).filter isChineseNarrow).length := by
    have h1 := countMain_preprocess text
    have h2 := length_filter_mono isChineseMain isChineseNarrow
      main_imp_narrow (preprocessText text)
    omega
  unfold detectChineseContent
  rw [if_neg htne]
  dsimp only
  rw [if_neg hwidene, if_pos hcnt, if_pos hlen]

/-- Long text below all three thresholds is classified negative. -/
theorem detect_long_sparse (text : JSString) (hlen : 20 < text.length)
    (hr1 : 10 * ((preprocessText text).filter isChineseNarrow).length
      < (preprocessText text).length)
    (hr2 : 100 * (text.filter isChineseWide).length < 8 * text.length)
    (hr3 : ((preprocessText text).filter isChineseNarrow).length < 5) :
    detectChineseContent text = false := by
  unfold detectChineseContent
  by_cases h0 : text = [] ∨ jsTrim text = []
  · rw [if_pos h0]
  · rw [if_neg h0]
    dsimp only
    by_cases h1 : text.filter isChineseWide = []
    · rw [if_pos h1]
    · rw [if_neg h1]
      by_cases h2 : 1 ≤ ((preprocessText text).filter isChineseNarrow).length
      · rw [if_pos h2, if_neg (show ¬ text.length ≤ 20 by omega)]
        have d1 : decide ((preprocessText text).length
            ≤ 10 * ((preprocessText text).filter isChineseNarrow).length)
            = false := decide_eq_false (by omega)
        have d2 : decide (8 * text.length
            ≤ 100 * (text.filter isChineseWide).length) = false :=
          decide_eq_false (by omega)
        have d3 : decide
            (5 ≤ ((preprocessText text).filter isChineseNarrow).length)
            = false := decide_eq_false (by omega)
        rw [d1, d2, d3]
        rfl
      · rw [if_neg h2]

/-- C9: the classifier returns true for every text of length at most 20
that contains a main-CJK (dense-script) character — in particular the
two-character text u4f60 u597d — and returns false for every longer text
whose post-strip dense ratio is below 0.10 (10*count < totalLength),
whose raw wide-class ratio is below 0.08 (100*wide < 8*length), and
whose post-strip dense count is below 5 — in particular "a" repeated
1000 times followed by u4f60. -/
theorem detectChineseContent_boundary :
    (∀ text : JSString, text.length ≤ 20 →
      (∃ c ∈ text, isChineseMain c = true) →
      detectChineseContent text = true) ∧
    (∀ text : JSString, 20 < text.length →
      10 * ((preprocessText text).filter isChineseNarrow).length
        < (preprocessText text).length →
      100 * (text.filter isChineseWide).length < 8 * text.length →
      ((preprocessText text).filter isChineseNarrow).length < 5 →
      detectChineseContent text = false) ∧
    detectChineseContent niHao = true ∧
    detectChineseContent longAsciiOneChinese = false :=
  ⟨detect_short_main, detect_long_sparse, by decide, by decide⟩

/-- Witness for C9: both branches of the boundary theorem applied at
concrete inputs, discharging every hypothesis there. -/
theorem detectChineseContent_boundary_witness :
    detectChineseContent niHao = true ∧
    detectChineseContent (List.replicate 21 97) = false :=
  ⟨detectChineseContent_boundary.1 niHao (by decide)
      ⟨0x4F60, by decide, by decide⟩,
    detectChineseContent_boundary.2.1 (List.replicate 21 97) (by decide)
      (by decide) (by decide) (by decide)⟩

/-- C6: whenever the queued translation rejects (the translate oracle is
an error), translateUserInput returns the original input with
wasTranslated = false; the model is a total function, so no exception
escapes. -/
theorem translateUserInput_fallback (enabled : Bool)
    (detectO : Except JSString JSString) (e userInput : JSString) :
    (translateUserInput enabled detectO (Except.error e)
        userInput).1.translatedText = userInput ∧
    (translateUserInput enabled detectO (Except.error e)
        userInput).1.wasTranslated = false := by
  unfold translateUserInput
  by_cases h1 : isSlashCommand userInput = true
  · rw [if_pos h1]
    exact ⟨rfl, rfl⟩
  · rw [if_neg h1]
    by_cases h2 : enabled = true
    · rw [if_neg (not_not_intro h2)]
      dsimp only
      by_cases h3 : (detectChineseContent userInput
          || (List.isPrefixOf [122, 104]
                (jsToLower (detectLanguage detectO userInput))
              && ! userInput.all (fun c => c ≤ 0x7F))) = true
      · rw [if_pos h3]
        exact ⟨rfl, rfl⟩
      · rw [if_neg h3]
        exact ⟨rfl, rfl⟩
    · rw [if_pos h2]
      exact ⟨rfl, rfl⟩

/-- C8: an input recognized as a slash command is returned unchanged
with wasTranslated = false and the queueing path is never taken; and an
input whose trimmed text starts with a double slash is not recognized as
a slash command (it is processed as ordinary text). -/
theorem slash_command_bypass :
    (∀ (enabled : Bool) (detectO queueO : Except JSString JSString)
        (userInput : JSString), isSlashCommand userInput = true →
      (translateUserInput enabled detectO queueO
          userInput).1.translatedText = userInput ∧
      (translateUserInput enabled detectO queueO
          userInput).1.wasTranslated = false ∧
      (translateUserInput enabled detectO queueO userInput).2 = false) ∧
    (∀ text : JSString, List.isPrefixOf [47, 47] (jsTrim text) = true →
      isSlashCommand text = false) := by
  constructor
  · intro enabled detectO queueO userInput h
    unfold translateUserInput
    rw [if_pos h]
    exact ⟨rfl, rfl, rfl⟩
  · intro text h
    have h1 : List.isPrefixOf [47] (jsTrim text) = true := by
      cases ht : jsTrim text with
      | nil =>
        rw [ht] at h
        exact absurd h (by decide)
      | cons c1 t1 =>
        cases t1 with
        | nil =>
          rw [ht] at h
          simp [List.isPrefixOf] at h
        | cons c2 rest =>
          rw [ht] at h
          simp only [List.isPrefixOf, Bool.and_eq_true, beq_iff_eq] at h
          obtain ⟨hc1, -⟩ := h
          subst hc1
          simp [List.isPrefixOf]
    unfold isSlashCommand
    dsimp only
    rw [if_neg (not_not_intro h1), if_pos h]

/-- Witness for C8: the bypass applied at the concrete command "/help"
and the double-slash rule applied at the concrete text "//not". -/
theorem slash_command_bypass_witness :
    isSlashCommand [47, 104, 101, 108, 112] = true ∧
    (translateUserInput true (Except.ok [101, 110]) (Except.ok [72, 105])
        [47, 104, 101, 108, 112]).2 = false ∧
    List.isPrefixOf [47, 47] (jsTrim [47, 47, 110, 111, 116]) = true ∧
    isSlashCommand [47, 47, 110, 111, 116] = false := by
  refine ⟨by decide, ?_, by decide, ?_⟩
  · exact (slash_command_bypass.1 true (Except.ok [101, 110])
      (Except.ok [72, 105]) [47, 104, 101, 108, 112] (by decide)).2.2
  · exact slash_command_bypass.2 [47, 47, 110, 111, 116] (by decide)
